import Mathlib

/-!
Verification of the frame-level diarization scoring core:
frame labeling (scorelib/score.py), contingency matrices and the
clustering / information-theoretic metrics (scorelib/metrics.py), and the
multi-recording alignment paths (scorelib/score.py, confusion_matrix.py).

Python floats are modelled as exact rationals (for the purely arithmetic
metrics) and exact reals (for the logarithmic metrics); numpy arrays become
lists and functions on Fin-indexed matrices; fallible numpy operations
(max of an empty array, concatenate of an empty list) become Except values.
-/

namespace DScore

/-- Machine epsilon of an IEEE-754 double, the value of numpy finfo(float).eps
used as the smoothing constant EPS in metrics.py. -/
def EPS : ℚ := 1 / 2 ^ 52

/-- Model of numpy unique on a one-dimensional array: the sorted list of
distinct values occurring in the input. -/
def npUnique {α : Type} [LinearOrder α] [DecidableEq α] (xs : List α) : List α :=
  (xs.dedup).insertionSort (· ≤ ·)

/-! ## Turn model (scorelib/score.py, class Turn) -/

/-- A speaker turn: speaker id with onset and offset in seconds. -/
structure Turn where
  speaker_id : String
  onset : ℚ
  offset : ℚ
deriving DecidableEq

/-! ## Frame labeler (scorelib/score.py, turns_to_frames) -/

/-- Frame boundary times, the array times = step * arange(n_frames). -/
def frameTimes (step : ℚ) (n : ℕ) : List ℚ :=
  (List.range n).map (fun i : ℕ => step * (i : ℚ))

/-- Model of numpy searchsorted with its default left side on a sorted
array: the number of entries strictly less than the query value. -/
def searchsorted (times : List ℚ) (v : ℚ) : ℕ :=
  times.countP (fun t => decide (t < v))

/-- Number of frames, n_frames = int(dur/step); for the nonnegative
durations of interest Python int() truncation is the floor. -/
def nFrames (dur step : ℚ) : ℕ :=
  (⌊dur / step⌋).toNat

/-- The sorted distinct speaker ids of a turn list, the array
speaker_classes before the reserved non-speech entry is appended. -/
def speaker_classes (turns : List Turn) : List String :=
  npUnique (turns.map Turn.speaker_id)

/-- Entry of the boolean presence matrix X built by turns_to_frames: speaker
class index c is marked present at frame f iff some turn of that speaker
covers f, where a turn covers the half-open searchsorted index range of its
onset and offset. -/
def speakerActive (turns : List Turn) (step : ℚ) (n : ℕ) (c : ℕ) (f : ℕ) : Bool :=
  turns.any (fun t =>
    decide ((speaker_classes turns).indexOf t.speaker_id = c) &&
    decide (searchsorted (frameTimes step n) t.onset ≤ f) &&
    decide (f < searchsorted (frameTimes step n) t.offset))

/-- The bit-packed frame label before the non-speech fixup: sum of 2^c over
the speaker classes c present at frame f. -/
def frameLabelRaw (turns : List Turn) (step : ℚ) (n : ℕ) (f : ℕ) : ℕ :=
  ∑ c ∈ Finset.range (speaker_classes turns).length,
    if speakerActive turns step n c f then 2 ^ c else 0

/-- The final integer frame label: frames where no speaker is present are
forced into the reserved non-speech class, whose bit is the one just past
the speaker bits. -/
def frameLabel (turns : List Turn) (step : ℚ) (n : ℕ) (f : ℕ) : ℕ :=
  if frameLabelRaw turns step n f = 0 then 2 ^ (speaker_classes turns).length
  else frameLabelRaw turns step n f

/-- Model of turns_to_frames with as_string=False: the integer label of every
frame in [0, n_frames). -/
def turns_to_frames (turns : List Turn) (dur step : ℚ) : List ℕ :=
  (List.range (nFrames dur step)).map (frameLabel turns step (nFrames dur step))

/-- Decoding of an integer label to its class name, the entry of
label_classes built by turns_to_frames when as_string=True: the
underscore-joined names of the classes whose bit is set, drawn from the
speaker classes with the reserved non-speech entry appended. -/
def decodeLabel (turns : List Turn) (lab : ℕ) : String :=
  let classes := speaker_classes turns ++ [("non-speech")]
  String.intercalate ("_")
    (((List.range classes.length).filter (fun c => lab.testBit c)).map
      (fun c => classes.getD c ("")))

/-- Model of turns_to_frames with as_string=True. -/
def turns_to_frames_str (turns : List Turn) (dur step : ℚ) : List String :=
  (turns_to_frames turns dur step).map (decodeLabel turns)

/-! ## Contingency builder (scorelib/metrics.py, contingency_matrix) -/

/-- One cell of the contingency matrix: the number of positions at which the
reference label is a and the system label is b. -/
def contingency_cell {α : Type} [DecidableEq α] (xs ys : List α) (a b : α) : ℕ :=
  (xs.zip ys).countP (fun p => decide (p.1 = a) && decide (p.2 = b))

/-- Model of contingency_matrix: the co-occurrence count matrix indexed by the
sorted distinct reference labels and the sorted distinct system labels. -/
def contingency_matrix {α : Type} [LinearOrder α] [DecidableEq α] (xs ys : List α) :
    Matrix (Fin (npUnique xs).length) (Fin (npUnique ys).length) ℕ :=
  Matrix.of fun i j => contingency_cell xs ys ((npUnique xs).get i) ((npUnique ys).get j)

/-! ## Metric engine (scorelib/metrics.py) -/

/-- Total count of a contingency matrix, cm.sum(). -/
def matTotal {m n : ℕ} (cm : Matrix (Fin m) (Fin n) ℕ) : ℕ :=
  ∑ i, ∑ j, cm i j

/-- Row marginal, cm.sum(axis=1). -/
def rowSum {m n : ℕ} (cm : Matrix (Fin m) (Fin n) ℕ) (i : Fin m) : ℕ :=
  ∑ j, cm i j

/-- Column marginal, cm.sum(axis=0). -/
def colSum {m n : ℕ} (cm : Matrix (Fin m) (Fin n) ℕ) (j : Fin n) : ℕ :=
  ∑ i, cm i j

/-- B-cubed precision, recall and F1 computed from a contingency matrix,
the core of metrics.bcubed. -/
def bcubedCM {m n : ℕ} (cm : Matrix (Fin m) (Fin n) ℕ) : ℚ × ℚ × ℚ :=
  let N : ℚ := (matTotal cm : ℚ)
  let prec := ∑ i, ∑ j, ((cm i j : ℚ) / N) * ((cm i j : ℚ) / (colSum cm j : ℚ))
  let recl := ∑ i, ∑ j, ((cm i j : ℚ) / N) * ((cm i j : ℚ) / (rowSum cm i : ℚ))
  (prec, recl, 2 * (prec * recl) / (prec + recl))

/-- Goodman-Kruskal tau in both directions computed from a contingency
matrix, the core of metrics.goodman_kruskal_tau. -/
def gkTauCM {m n : ℕ} (cm : Matrix (Fin m) (Fin n) ℕ) : ℚ × ℚ :=
  let N : ℚ := (matTotal cm : ℚ)
  let q : Fin m → Fin n → ℚ := fun i j => (cm i j : ℚ) / N
  let refMarg : Fin m → ℚ := fun i => ∑ j, q i j
  let sysMarg : Fin n → ℚ := fun j => ∑ i, q i j
  let vy := 1 - (∑ j, (sysMarg j) ^ 2) + EPS
  let vyBarX := 1 - ∑ i, (∑ j, (q i j) ^ 2) / refMarg i
  let vx := 1 - (∑ i, (refMarg i) ^ 2) + EPS
  let vxBarY := 1 - ∑ j, (∑ i, (q i j) ^ 2) / sysMarg j
  ((vy - vyBarX) / vy, (vx - vxBarY) / vx)

/-- The logarithm used by the information-theoretic metrics: natural log if
nats is requested, base-2 log otherwise. -/
noncomputable def logF (nats : Bool) (x : ℝ) : ℝ :=
  if nats then Real.log x else Real.logb 2 x

/-- The set of index pairs of the nonzero cells of a contingency matrix,
the pairs produced by np.nonzero(cm). -/
def nzCells {m n : ℕ} (cm : Matrix (Fin m) (Fin n) ℕ) : Finset (Fin m × Fin n) :=
  Finset.univ.filter (fun p => cm p.1 p.2 ≠ 0)

/-- Conditional entropy of the reference labeling given the system labeling
computed from a contingency matrix, the core of metrics.conditional_entropy. -/
noncomputable def conditionalEntropyCM {m n : ℕ} (cm : Matrix (Fin m) (Fin n) ℕ)
    (nats : Bool) : ℝ :=
  let N : ℝ := (matTotal cm : ℝ)
  let nSys : ℝ := ((∑ j, colSum cm j : ℕ) : ℝ)
  ∑ p ∈ nzCells cm,
    ((cm p.1 p.2 : ℝ) / N) *
      (logF nats (colSum cm p.2 : ℝ) - logF nats (cm p.1 p.2 : ℝ) +
        logF nats N - logF nats nSys)

/-- Mutual information and normalized mutual information computed from a
contingency matrix, the core of metrics.mutual_information. -/
noncomputable def mutualInformationCM {m n : ℕ} (cm : Matrix (Fin m) (Fin n) ℕ)
    (nats : Bool) : ℝ × ℝ :=
  let N : ℝ := (matTotal cm : ℝ)
  let mi : ℝ := ∑ p ∈ nzCells cm,
    ((cm p.1 p.2 : ℝ) / N) *
      (logF nats (cm p.1 p.2 : ℝ) -
        logF nats ((rowSum cm p.1 : ℝ) * (colSum cm p.2 : ℝ)) + logF nats N)
  let hRef : ℝ := -∑ i ∈ Finset.univ.filter (fun i : Fin m => 0 < (rowSum cm i : ℝ) / N),
    ((rowSum cm i : ℝ) / N) * logF nats ((rowSum cm i : ℝ) / N)
  let hSys : ℝ := -∑ j ∈ Finset.univ.filter (fun j : Fin n => 0 < (colSum cm j : ℝ) / N),
    ((colSum cm j : ℝ) / N) * logF nats ((colSum cm j : ℝ) / N)
  (mi, mi / Real.sqrt (hRef * hSys + (EPS : ℝ)))

/-- A contingency matrix of unspecified shape, as passed through the optional
cm argument of the metric functions. -/
structure CMat where
  m : ℕ
  n : ℕ
  mat : Matrix (Fin m) (Fin n) ℕ

/-- The contingency matrix of a pair of label sequences packaged with its
shape. -/
def contingencyCMat {α : Type} [LinearOrder α] [DecidableEq α] (xs ys : List α) : CMat :=
  ⟨(npUnique xs).length, (npUnique ys).length, contingency_matrix xs ys⟩

/-- Model of metrics.bcubed: when no contingency matrix is supplied one is
computed from the label sequences, otherwise the labels are ignored. -/
def bcubed {α : Type} [LinearOrder α] [DecidableEq α]
    (ref_labels sys_labels : List α) (cm : Option CMat) : ℚ × ℚ × ℚ :=
  match cm with
  | some c => bcubedCM c.mat
  | none => bcubedCM (contingency_matrix ref_labels sys_labels)

/-- Model of metrics.goodman_kruskal_tau. -/
def goodman_kruskal_tau {α : Type} [LinearOrder α] [DecidableEq α]
    (ref_labels sys_labels : List α) (cm : Option CMat) : ℚ × ℚ :=
  match cm with
  | some c => gkTauCM c.mat
  | none => gkTauCM (contingency_matrix ref_labels sys_labels)

/-- Model of metrics.conditional_entropy. -/
noncomputable def conditional_entropy {α : Type} [LinearOrder α] [DecidableEq α]
    (ref_labels sys_labels : List α) (cm : Option CMat) (nats : Bool) : ℝ :=
  match cm with
  | some c => conditionalEntropyCM c.mat nats
  | none => conditionalEntropyCM (contingency_matrix ref_labels sys_labels) nats

/-- Model of metrics.mutual_information. -/
noncomputable def mutual_information {α : Type} [LinearOrder α] [DecidableEq α]
    (ref_labels sys_labels : List α) (cm : Option CMat) (nats : Bool) : ℝ × ℝ :=
  match cm with
  | some c => mutualInformationCM c.mat nats
  | none => mutualInformationCM (contingency_matrix ref_labels sys_labels) nats

/-! ## Multi-recording aligner (scorelib/score.py, rttms_to_frames) -/

/-- Model of the Python max builtin on a list of offsets: an error on an
empty sequence, the maximum otherwise. -/
def maxOffset (turns : List Turn) : Except String ℚ :=
  match turns.map Turn.offset with
  | [] => Except.error ("max() arg is an empty sequence")
  | x :: xs => Except.ok (xs.foldl max x)

/-- Model of numpy ndarray.max on an array of labels: an error on a
zero-size array, the maximum otherwise. -/
def npMax (l : List ℕ) : Except String ℕ :=
  match l with
  | [] => Except.error ("zero-size array to reduction operation maximum")
  | x :: xs => Except.ok (xs.foldl max x)

/-- The loop body of rttms_to_frames over the recordings shared by reference
and system: for each recording the duration is the minimum of the two
annotated spans, the integer frame labels are offset by the running maximum
label seen so far (independently for reference and system), and the running
maxima are updated to the maxima of the offset labels. -/
def alignRecs (step : ℚ) :
    List (List Turn × List Turn) → ℕ → ℕ →
    Except String (List (List ℕ) × List (List ℕ))
  | [], _, _ => Except.ok ([], [])
  | (rt, st) :: rest, maxR, maxS =>
    match maxOffset rt with
    | Except.error e => Except.error e
    | Except.ok rdur =>
      match maxOffset st with
      | Except.error e => Except.error e
      | Except.ok sdur =>
        let dur := min rdur sdur
        let rlab := (turns_to_frames rt dur step).map (· + maxR)
        match npMax rlab with
        | Except.error e => Except.error e
        | Except.ok maxR2 =>
          let slab := (turns_to_frames st dur step).map (· + maxS)
          match npMax slab with
          | Except.error e => Except.error e
          | Except.ok maxS2 =>
            match alignRecs step rest maxR2 maxS2 with
            | Except.error e => Except.error e
            | Except.ok rs => Except.ok (rlab :: rs.1, slab :: rs.2)

/-- The sorted list of recording ids common to reference and system, the
value rec_ids = sorted(set(ref) & set(sys)). -/
def commonRecIds (ref sys : List (String × List Turn)) : List String :=
  npUnique ((ref.map Prod.fst).filter (fun r => (sys.map Prod.fst).contains r))

/-- Lookup of the turn list of a recording id in a parsed RTTM mapping. -/
def turnsOf (m : List (String × List Turn)) (rid : String) : List Turn :=
  ((m.find? (fun p => p.1 == rid)).map Prod.snd).getD []

/-- The per-recording offset label blocks built by scorelib rttms_to_frames,
before concatenation. -/
def rttms_to_frames_blocks (ref sys : List (String × List Turn)) (step : ℚ) :
    Except String (List (List ℕ) × List (List ℕ)) :=
  alignRecs step ((commonRecIds ref sys).map (fun rid => (turnsOf ref rid, turnsOf sys rid))) 0 0

/-- Model of scorelib rttms_to_frames: the per-recording blocks concatenated;
np.concatenate raises on an empty list of arrays. -/
def rttms_to_frames (ref sys : List (String × List Turn)) (step : ℚ) :
    Except String (List ℕ × List ℕ) :=
  match rttms_to_frames_blocks ref sys step with
  | Except.error e => Except.error e
  | Except.ok bs =>
    if bs.1.isEmpty then Except.error ("need at least one array to concatenate")
    else Except.ok (bs.1.flatten, bs.2.flatten)

/-! ## Single-file CLI path (confusion_matrix.py, rttms_to_frames) -/

/-- Model of confusion_matrix.py rttms_to_frames: raises unless the set of
recording ids common to reference and system has exactly one element, then
labels the first recording of each input as strings. -/
def cm_rttms_to_frames (ref sys : List (String × List Turn)) (step : ℚ) :
    Except String (List String × List String) :=
  if (commonRecIds ref sys).length ≠ 1 then
    Except.error ("RTTM contains more than one file.")
  else
    let refTurns := ((ref.head?).map Prod.snd).getD []
    let sysTurns := ((sys.head?).map Prod.snd).getD []
    match maxOffset refTurns with
    | Except.error e => Except.error e
    | Except.ok rdur =>
      match maxOffset sysTurns with
      | Except.error e => Except.error e
      | Except.ok sdur =>
        let dur := min rdur sdur
        Except.ok (turns_to_frames_str refTurns dur step,
          turns_to_frames_str sysTurns dur step)



/-! ## List and counting helpers -/

lemma npUnique_nodup {α : Type} [LinearOrder α] [DecidableEq α] (xs : List α) :
    (npUnique xs).Nodup :=
  (List.perm_insertionSort (· ≤ ·) xs.dedup).nodup_iff.mpr xs.nodup_dedup

lemma npUnique_mem {α : Type} [LinearOrder α] [DecidableEq α] (xs : List α) (a : α) :
    a ∈ npUnique xs ↔ a ∈ xs := by
  unfold npUnique
  rw [(List.perm_insertionSort (· ≤ ·) xs.dedup).mem_iff, List.mem_dedup]

lemma npUnique_count {α : Type} [LinearOrder α] [DecidableEq α] (xs : List α) (a : α)
    (ha : a ∈ xs) : (npUnique xs).count a = 1 :=
  List.count_eq_one_of_mem (npUnique_nodup xs) ((npUnique_mem xs a).mpr ha)

lemma fin_sum_get {β M : Type} [AddCommMonoid M] (cs : List β) (F : β → M) :
    ∑ j : Fin cs.length, F (cs.get j) = (cs.map F).sum := by
  induction cs with
  | nil => simp
  | cons c cs ih =>
    simp only [List.length_cons, Fin.sum_univ_succ, List.map_cons, List.sum_cons, ← ih]
    rfl

lemma sum_map_add {β : Type} (cs : List β) (F G : β → ℕ) :
    (cs.map (fun c => F c + G c)).sum = (cs.map F).sum + (cs.map G).sum := by
  induction cs with
  | nil => simp
  | cons c cs ih => simp only [List.map_cons, List.sum_cons, ih]; omega

lemma sum_map_ite_eq {β : Type} [DecidableEq β] (cs : List β) (hnd : cs.Nodup) (b : β)
    (hb : b ∈ cs) (t : ℕ) : (cs.map (fun c => if b = c then t else 0)).sum = t := by
  induction cs with
  | nil => simp at hb
  | cons c cs ih =>
    simp only [List.map_cons, List.sum_cons]
    rcases List.mem_cons.mp hb with h | h
    · subst h
      rw [if_pos rfl]
      have hnotin : b ∉ cs := (List.nodup_cons.mp hnd).1
      have hz : (cs.map (fun c => if b = c then t else 0)).sum = 0 := by
        apply List.sum_eq_zero
        intro x hx
        rcases List.mem_map.mp hx with ⟨c, hc, hcx⟩
        have hbc : b ≠ c := fun h => hnotin (h ▸ hc)
        rw [if_neg hbc] at hcx
        omega
      omega
    · have hbc : b ≠ c := by
        rintro rfl; exact (List.nodup_cons.mp hnd).1 h
      rw [if_neg hbc, ih (List.nodup_cons.mp hnd).2 h]
      omega

lemma countP_partition {γ β : Type} [DecidableEq β] (l : List γ) (cs : List β)
    (hnd : cs.Nodup) (g : γ → β) (q : γ → Bool)
    (hmem : ∀ x ∈ l, q x = true → g x ∈ cs) :
    (cs.map (fun c => l.countP (fun x => q x && decide (g x = c)))).sum = l.countP q := by
  induction l with
  | nil => simp
  | cons x l ih =>
    have hrec := ih (fun y hy hq => hmem y (List.mem_cons_of_mem x hy) hq)
    simp only [List.countP_cons]
    rw [sum_map_add cs (fun c => l.countP (fun y => q y && decide (g y = c)))
      (fun c => if (q x && decide (g x = c)) = true then 1 else 0), hrec]
    by_cases hq : q x = true
    · have hg : g x ∈ cs := hmem x (List.mem_cons_self x l) hq
      have h2 : (cs.map (fun c => if (q x && decide (g x = c)) = true then 1 else 0)).sum = 1 := by
        have heq : (fun c => if (q x && decide (g x = c)) = true then (1:ℕ) else 0) =
            (fun c => if g x = c then 1 else 0) := by
          funext c
          simp [hq]
        rw [heq, sum_map_ite_eq cs hnd (g x) hg 1]
      rw [h2, if_pos hq]
    · have h2 : (cs.map (fun c => if (q x && decide (g x = c)) = true then 1 else 0)).sum = 0 := by
        apply List.sum_eq_zero
        intro y hy
        rcases List.mem_map.mp hy with ⟨c, hc, hcy⟩
        simp [hq] at hcy
        omega
      rw [h2, if_neg hq]

lemma countP_zip_fst {α : Type} [DecidableEq α] (xs ys : List α)
    (hlen : xs.length ≤ ys.length) (a : α) :
    (xs.zip ys).countP (fun p => decide (p.1 = a)) = xs.count a := by
  have h1 : (xs.zip ys).map Prod.fst = xs := List.map_fst_zip xs ys hlen
  rw [List.count]
  conv_rhs => rw [← h1]
  rw [List.countP_map]
  apply List.countP_congr
  intro p _
  simp [Function.comp]

lemma countP_zip_snd {α : Type} [DecidableEq α] (xs ys : List α)
    (hlen : ys.length ≤ xs.length) (a : α) :
    (xs.zip ys).countP (fun p => decide (p.2 = a)) = ys.count a := by
  have h1 : (xs.zip ys).map Prod.snd = ys := List.map_snd_zip xs ys hlen
  rw [List.count]
  conv_rhs => rw [← h1]
  rw [List.countP_map]
  apply List.countP_congr
  intro p _
  simp [Function.comp]


lemma contingency_rowSum {α : Type} [LinearOrder α] [DecidableEq α] (xs ys : List α)
    (hlen : xs.length = ys.length) (i : Fin (npUnique xs).length) :
    rowSum (contingency_matrix xs ys) i = xs.count ((npUnique xs).get i) := by
  set a := (npUnique xs).get i with ha
  have h1 : rowSum (contingency_matrix xs ys) i =
      ((npUnique ys).map (fun c => contingency_cell xs ys a c)).sum := by
    rw [rowSum, ← fin_sum_get]
    rfl
  rw [h1]
  unfold contingency_cell
  rw [countP_partition (xs.zip ys) (npUnique ys) (npUnique_nodup ys) Prod.snd
    (fun p => decide (p.1 = a))]
  · exact countP_zip_fst xs ys (le_of_eq hlen) a
  · intro p hp _
    rw [npUnique_mem]
    exact (List.of_mem_zip hp).2

lemma contingency_colSum {α : Type} [LinearOrder α] [DecidableEq α] (xs ys : List α)
    (hlen : xs.length = ys.length) (j : Fin (npUnique ys).length) :
    colSum (contingency_matrix xs ys) j = ys.count ((npUnique ys).get j) := by
  set b := (npUnique ys).get j with hb
  have h1 : colSum (contingency_matrix xs ys) j =
      ((npUnique xs).map (fun c => contingency_cell xs ys c b)).sum := by
    rw [colSum, ← fin_sum_get]
    rfl
  rw [h1]
  have h2 : ∀ c, contingency_cell xs ys c b =
      (xs.zip ys).countP (fun p => decide (p.2 = b) && decide (p.1 = c)) := by
    intro c
    unfold contingency_cell
    apply List.countP_congr
    intro p _
    rw [Bool.and_comm]
  simp only [h2]
  rw [countP_partition (xs.zip ys) (npUnique xs) (npUnique_nodup xs) Prod.fst
    (fun p => decide (p.2 = b))]
  · exact countP_zip_snd xs ys (le_of_eq hlen.symm) b
  · intro p hp _
    rw [npUnique_mem]
    exact (List.of_mem_zip hp).1

lemma sum_count_npUnique {α : Type} [LinearOrder α] [DecidableEq α] (xs : List α) :
    ((npUnique xs).map (fun c => xs.count c)).sum = xs.length := by
  have hperm : List.Perm (npUnique xs) xs.dedup := List.perm_insertionSort (· ≤ ·) xs.dedup
  rw [(hperm.map (fun c => xs.count c)).sum_eq]
  exact List.sum_map_count_dedup_eq_length xs

lemma contingency_total {α : Type} [LinearOrder α] [DecidableEq α] (xs ys : List α)
    (hlen : xs.length = ys.length) :
    matTotal (contingency_matrix xs ys) = xs.length := by
  have h1 : matTotal (contingency_matrix xs ys) =
      ∑ i, rowSum (contingency_matrix xs ys) i := rfl
  rw [h1]
  have h2 : ∀ i, rowSum (contingency_matrix xs ys) i = xs.count ((npUnique xs).get i) :=
    contingency_rowSum xs ys hlen
  rw [Finset.sum_congr rfl (fun i _ => h2 i), fin_sum_get (npUnique xs) (fun c => xs.count c)]
  exact sum_count_npUnique xs



/-! ## Frame labeler helpers -/

lemma countP_range_lt (n K : ℕ) :
    (List.range n).countP (fun i => decide (i < K)) = min K n := by
  induction n with
  | zero => simp
  | succ n ih =>
    rw [List.range_succ, List.countP_append, ih]
    by_cases h : n < K <;> simp [h] <;> omega

/-- Closed form of searchsorted over the frame boundary times. -/
lemma searchsorted_frameTimes {step : ℚ} (hstep : 0 < step) (n : ℕ) (v : ℚ) :
    searchsorted (frameTimes step n) v = min ⌈v / step⌉₊ n := by
  unfold searchsorted frameTimes
  rw [List.countP_map]
  rw [show ((fun t => decide (t < v)) ∘ (fun i : ℕ => step * (i:ℚ))) =
      (fun i : ℕ => decide (i < ⌈v / step⌉₊)) by
    funext i
    simp only [Function.comp_apply]
    rw [decide_eq_decide, mul_comm, ← lt_div_iff hstep]
    exact (Nat.lt_ceil).symm]
  rw [countP_range_lt]

lemma frameLabel_pos (turns : List Turn) (step : ℚ) (n : ℕ) (f : ℕ) :
    0 < frameLabel turns step n f := by
  unfold frameLabel
  split
  · exact Nat.pos_pow_of_pos _ (by norm_num)
  · omega

lemma turns_to_frames_pos (turns : List Turn) (dur step : ℚ) :
    ∀ lab ∈ turns_to_frames turns dur step, 1 ≤ lab := by
  intro lab hlab
  rcases List.mem_map.mp hlab with ⟨f, _, hf⟩
  have := frameLabel_pos turns step (nFrames dur step) f
  omega



/-- C4: for equal-length label sequences the contingency matrix sums to the
sequence length, its row and column marginals are the per-class frame counts,
and every distinct input label indexes exactly one row (reference side) and
one column (system side). -/
theorem C4_contingency_invariants {α : Type} [LinearOrder α] [DecidableEq α]
    (xs ys : List α) (hlen : xs.length = ys.length) :
    matTotal (contingency_matrix xs ys) = xs.length ∧
    (∀ i, rowSum (contingency_matrix xs ys) i = xs.count ((npUnique xs).get i)) ∧
    (∀ j, colSum (contingency_matrix xs ys) j = ys.count ((npUnique ys).get j)) ∧
    (∀ a ∈ xs, (npUnique xs).count a = 1) ∧
    (∀ a ∈ ys, (npUnique ys).count a = 1) ∧
    (∀ a, a ∈ npUnique xs ↔ a ∈ xs) ∧
    (∀ a, a ∈ npUnique ys ↔ a ∈ ys) :=
  ⟨contingency_total xs ys hlen,
   contingency_rowSum xs ys hlen,
   contingency_colSum xs ys hlen,
   fun a ha => npUnique_count xs a ha,
   fun a ha => npUnique_count ys a ha,
   npUnique_mem xs,
   npUnique_mem ys⟩

/-- C4 witness: the invariants evaluated at the concrete pair [0,0,1] and
[2,3,3]. -/
theorem C4_witness :
    (([0,0,1] : List ℕ).length = ([2,3,3] : List ℕ).length) ∧
    (matTotal (contingency_matrix ([0,0,1] : List ℕ) [2,3,3]) = ([0,0,1] : List ℕ).length ∧
    (∀ i, rowSum (contingency_matrix ([0,0,1] : List ℕ) [2,3,3]) i =
      ([0,0,1] : List ℕ).count ((npUnique ([0,0,1] : List ℕ)).get i)) ∧
    (∀ j, colSum (contingency_matrix ([0,0,1] : List ℕ) [2,3,3]) j =
      ([2,3,3] : List ℕ).count ((npUnique ([2,3,3] : List ℕ)).get j)) ∧
    (∀ a ∈ ([0,0,1] : List ℕ), (npUnique ([0,0,1] : List ℕ)).count a = 1) ∧
    (∀ a ∈ ([2,3,3] : List ℕ), (npUnique ([2,3,3] : List ℕ)).count a = 1) ∧
    (∀ a, a ∈ npUnique ([0,0,1] : List ℕ) ↔ a ∈ ([0,0,1] : List ℕ)) ∧
    (∀ a, a ∈ npUnique ([2,3,3] : List ℕ) ↔ a ∈ ([2,3,3] : List ℕ))) :=
  ⟨by decide, C4_contingency_invariants [0,0,1] [2,3,3] (by decide)⟩

/-- C6: each metric computed from raw labels equals the metric computed from
the pre-built contingency matrix of those labels, and when a matrix is
supplied the label arguments are ignored. -/
theorem C6_matrix_equivalence {α : Type} [LinearOrder α] [DecidableEq α]
    (xs ys : List α) :
    (bcubed xs ys none = bcubed xs ys (some (contingencyCMat xs ys)) ∧
      ∀ (c : CMat) (xs2 ys2 : List α), bcubed xs ys (some c) = bcubed xs2 ys2 (some c)) ∧
    (goodman_kruskal_tau xs ys none = goodman_kruskal_tau xs ys (some (contingencyCMat xs ys)) ∧
      ∀ (c : CMat) (xs2 ys2 : List α),
        goodman_kruskal_tau xs ys (some c) = goodman_kruskal_tau xs2 ys2 (some c)) ∧
    (∀ nats, conditional_entropy xs ys none nats =
        conditional_entropy xs ys (some (contingencyCMat xs ys)) nats ∧
      ∀ (c : CMat) (xs2 ys2 : List α),
        conditional_entropy xs ys (some c) nats = conditional_entropy xs2 ys2 (some c) nats) ∧
    (∀ nats, mutual_information xs ys none nats =
        mutual_information xs ys (some (contingencyCMat xs ys)) nats ∧
      ∀ (c : CMat) (xs2 ys2 : List α),
        mutual_information xs ys (some c) nats = mutual_information xs2 ys2 (some c) nats) :=
  ⟨⟨rfl, fun _ _ _ => rfl⟩, ⟨rfl, fun _ _ _ => rfl⟩,
   fun _ => ⟨rfl, fun _ _ _ => rfl⟩, fun _ => ⟨rfl, fun _ _ _ => rfl⟩⟩

/-- C10: every integer frame label produced by turns_to_frames is at least 1,
since every frame carries a speaker bit or the forced non-speech bit. -/
theorem C10_labels_positive (turns : List Turn) (dur step : ℚ)
    (hne : turns ≠ []) (hdur : 0 ≤ dur) (hstep : 0 < step) :
    ∀ lab ∈ turns_to_frames turns dur step, 1 ≤ lab :=
  turns_to_frames_pos turns dur step

/-- C10 witness: the positivity applied to a concrete one-turn recording. -/
theorem C10_witness :
    (([⟨"A", 0, 1⟩] : List Turn) ≠ [] ∧ (0:ℚ) ≤ 2 ∧ (0:ℚ) < 1) ∧
    (∀ lab ∈ turns_to_frames [⟨"A", 0, 1⟩] 2 1, 1 ≤ lab) :=
  ⟨⟨List.cons_ne_nil _ _, by norm_num, by norm_num⟩,
   C10_labels_positive [⟨"A", 0, 1⟩] 2 1 (List.cons_ne_nil _ _) (by norm_num) (by norm_num)⟩

/-- C2 counterexample: for the single turn (speaker A, onset 0, offset 1)
with step 1 and two frames, the frames marked active for A are not the
half-open range whose begin index counts the boundary times that are at or
below the onset and whose end index counts those at or below the offset:
that range is [1, 2), but the labeler marks frame 0 (and not frame 1). -/
theorem C2_counterexample :
    ¬ (∀ f, speakerActive [⟨"A", 0, 1⟩] 1 2 0 f = true ↔
      ((frameTimes 1 2).countP (fun t => decide (t ≤ (0:ℚ))) ≤ f ∧
       f < (frameTimes 1 2).countP (fun t => decide (t ≤ (1:ℚ))))) := by
  intro h
  have htimes : frameTimes 1 2 = [0, 1] := by
    norm_num [frameTimes, List.range_succ]
  have hcount : (frameTimes 1 2).countP (fun t => decide (t ≤ (0:ℚ))) = 1 := by
    rw [htimes]
    norm_num [List.countP_cons]
  have hs := searchsorted_frameTimes (show (0:ℚ) < 1 by norm_num) 2
  have h1 : searchsorted (frameTimes 1 2) (0:ℚ) = 0 := by
    rw [hs]
    norm_num
  have h2 : searchsorted (frameTimes 1 2) (1:ℚ) = 1 := by
    rw [hs]
    norm_num
  have hactive : speakerActive [⟨"A", 0, 1⟩] 1 2 0 0 = true := by
    unfold speakerActive
    rw [List.any_eq_true]
    refine ⟨⟨"A", 0, 1⟩, by simp, ?_⟩
    simp [h1, h2, speaker_classes, npUnique, List.insertionSort]
  have := ((h 0).mp hactive).1
  rw [hcount] at this
  omega

/-- C2 amended: the frame index range of a turn uses searchsorted left
semantics, counting the frame boundary times strictly below the onset and
offset (equivalently the minimum of the frame count and the ceiling of
time over step), and a speaker class is marked active at a frame exactly
when one of its turns covers the frame in that half-open range. -/
theorem C2_searchsorted_ranges (turns : List Turn) (step dur : ℚ) (hstep : 0 < step) :
    (∀ v : ℚ, searchsorted (frameTimes step (nFrames dur step)) v =
      min ⌈v / step⌉₊ (nFrames dur step)) ∧
    (∀ c f, speakerActive turns step (nFrames dur step) c f = true ↔
      ∃ t ∈ turns, (speaker_classes turns).indexOf t.speaker_id = c ∧
        (frameTimes step (nFrames dur step)).countP (fun b => decide (b < t.onset)) ≤ f ∧
        f < (frameTimes step (nFrames dur step)).countP (fun b => decide (b < t.offset))) := by
  constructor
  · intro v
    exact searchsorted_frameTimes hstep (nFrames dur step) v
  · intro c f
    unfold speakerActive searchsorted
    rw [List.any_eq_true]
    constructor
    · rintro ⟨t, ht, hbool⟩
      refine ⟨t, ht, ?_⟩
      simp only [Bool.and_eq_true, decide_eq_true_eq] at hbool
      exact ⟨hbool.1.1, hbool.1.2, hbool.2⟩
    · rintro ⟨t, ht, h1, h2, h3⟩
      refine ⟨t, ht, ?_⟩
      simp [h1, h2, h3]

/-- C2 witness: the amended characterization evaluated for the one-turn
recording (A, 0, 1) with step 1 and duration 2. -/
theorem C2_witness :
    (0:ℚ) < 1 ∧
    ((∀ v : ℚ, searchsorted (frameTimes 1 (nFrames 2 1)) v =
      min ⌈v / 1⌉₊ (nFrames 2 1)) ∧
    (∀ c f, speakerActive [⟨"A", 0, 1⟩] 1 (nFrames 2 1) c f = true ↔
      ∃ t ∈ ([⟨"A", 0, 1⟩] : List Turn),
        (speaker_classes [⟨"A", 0, 1⟩]).indexOf t.speaker_id = c ∧
        (frameTimes 1 (nFrames 2 1)).countP (fun b => decide (b < t.onset)) ≤ f ∧
        f < (frameTimes 1 (nFrames 2 1)).countP (fun b => decide (b < t.offset)))) :=
  ⟨by norm_num, C2_searchsorted_ranges [⟨"A", 0, 1⟩] 1 2 (by norm_num)⟩



/-! ## Aligner helpers -/

lemma le_foldl_max (xs : List ℕ) :
    ∀ x : ℕ, x ≤ xs.foldl max x ∧ ∀ y ∈ xs, y ≤ xs.foldl max x := by
  induction xs with
  | nil => intro x; exact ⟨le_refl x, by simp⟩
  | cons a xs ih =>
    intro x
    have h1 := (ih (max x a)).1
    have h2 := (ih (max x a)).2
    refine ⟨le_trans (le_max_left x a) h1, ?_⟩
    intro y hy
    rcases List.mem_cons.mp hy with rfl | hy
    · exact le_trans (le_max_right x y) h1
    · exact h2 y hy

lemma npMax_spec (l : List ℕ) (M : ℕ) (h : npMax l = Except.ok M) :
    l ≠ [] ∧ ∀ x ∈ l, x ≤ M := by
  cases l with
  | nil => simp [npMax] at h
  | cons x xs =>
    simp only [npMax, Except.ok.injEq] at h
    subst h
    refine ⟨by simp, ?_⟩
    intro y hy
    rcases List.mem_cons.mp hy with rfl | hy
    · exact (le_foldl_max xs y).1
    · exact (le_foldl_max xs x).2 y hy

/-- Invariant of the label-offset loop: every produced label exceeds the
incoming running maximum, and the blocks are strictly increasing from one
recording to the next. -/
lemma alignRecs_spec (step : ℚ) :
    ∀ (recs : List (List Turn × List Turn)) (mR mS : ℕ) (rb sb : List (List ℕ)),
      alignRecs step recs mR mS = Except.ok (rb, sb) →
      ((∀ b ∈ rb, ∀ x ∈ b, mR < x) ∧ (∀ b ∈ sb, ∀ x ∈ b, mS < x)) ∧
      (rb.Pairwise (fun b1 b2 => ∀ x ∈ b1, ∀ y ∈ b2, x < y) ∧
       sb.Pairwise (fun b1 b2 => ∀ x ∈ b1, ∀ y ∈ b2, x < y)) := by
  intro recs
  induction recs with
  | nil =>
    intro mR mS rb sb h
    simp only [alignRecs, Except.ok.injEq, Prod.mk.injEq] at h
    rcases h with ⟨h1, h2⟩
    subst h1; subst h2
    simp
  | cons rec rest ih =>
    rcases rec with ⟨rt, st⟩
    intro mR mS rb sb h
    rw [alignRecs] at h
    cases hrd : maxOffset rt with
    | error e => rw [hrd] at h; exact absurd h (by simp)
    | ok rdur =>
    rw [hrd] at h
    cases hsd : maxOffset st with
    | error e => rw [hsd] at h; exact absurd h (by simp)
    | ok sdur =>
    rw [hsd] at h
    dsimp only at h
    cases hmr : npMax ((turns_to_frames rt (min rdur sdur) step).map (· + mR)) with
    | error e => rw [hmr] at h; exact absurd h (by simp)
    | ok maxR2 =>
    rw [hmr] at h
    dsimp only at h
    cases hms : npMax ((turns_to_frames st (min rdur sdur) step).map (· + mS)) with
    | error e => rw [hms] at h; exact absurd h (by simp)
    | ok maxS2 =>
    rw [hms] at h
    dsimp only at h
    cases hrest : alignRecs step rest maxR2 maxS2 with
    | error e => rw [hrest] at h; exact absurd h (by simp)
    | ok rs =>
    rw [hrest] at h
    simp only [Except.ok.injEq, Prod.mk.injEq] at h
    rcases h with ⟨h1, h2⟩
    subst h1; subst h2
    -- facts about the head blocks
    have hrpos : ∀ x ∈ (turns_to_frames rt (min rdur sdur) step).map (· + mR), mR < x := by
      intro x hx
      rcases List.mem_map.mp hx with ⟨l, hl, rfl⟩
      have := turns_to_frames_pos rt (min rdur sdur) step l hl
      omega
    have hspos : ∀ x ∈ (turns_to_frames st (min rdur sdur) step).map (· + mS), mS < x := by
      intro x hx
      rcases List.mem_map.mp hx with ⟨l, hl, rfl⟩
      have := turns_to_frames_pos st (min rdur sdur) step l hl
      omega
    have hrspec := npMax_spec _ _ hmr
    have hsspec := npMax_spec _ _ hms
    have hrlt : mR < maxR2 := by
      rcases List.exists_mem_of_ne_nil _ hrspec.1 with ⟨x, hx⟩
      exact lt_of_lt_of_le (hrpos x hx) (hrspec.2 x hx)
    have hslt : mS < maxS2 := by
      rcases List.exists_mem_of_ne_nil _ hsspec.1 with ⟨x, hx⟩
      exact lt_of_lt_of_le (hspos x hx) (hsspec.2 x hx)
    have hih := ih maxR2 maxS2 rs.1 rs.2 (by rw [hrest])
    constructor
    · constructor
      · intro b hb x hx
        rcases List.mem_cons.mp hb with rfl | hb
        · exact hrpos x hx
        · exact lt_trans hrlt (hih.1.1 b hb x hx)
      · intro b hb x hx
        rcases List.mem_cons.mp hb with rfl | hb
        · exact hspos x hx
        · exact lt_trans hslt (hih.1.2 b hb x hx)
    · constructor
      · rw [List.pairwise_cons]
        refine ⟨?_, hih.2.1⟩
        intro b hb x hx y hy
        exact lt_of_le_of_lt (hrspec.2 x hx) (hih.1.1 b hb y hy)
      · rw [List.pairwise_cons]
        refine ⟨?_, hih.2.2⟩
        intro b hb x hx y hy
        exact lt_of_le_of_lt (hsspec.2 x hx) (hih.1.2 b hb y hy)

/-- C5: whenever the multi-recording aligner succeeds, the per-recording
label blocks are pairwise disjoint in both streams: no frame of one
recording carries the same integer label as a frame of another recording. -/
theorem C5_cross_recording_disjoint (ref sys : List (String × List Turn)) (step : ℚ)
    (rb sb : List (List ℕ))
    (h : rttms_to_frames_blocks ref sys step = Except.ok (rb, sb)) :
    rb.Pairwise (fun b1 b2 => ∀ x ∈ b1, ∀ y ∈ b2, x ≠ y) ∧
    sb.Pairwise (fun b1 b2 => ∀ x ∈ b1, ∀ y ∈ b2, x ≠ y) := by
  have hs := alignRecs_spec step _ 0 0 rb sb h
  constructor
  · exact hs.2.1.imp (fun hlt x hx y hy => Nat.ne_of_lt (hlt x hx y hy))
  · exact hs.2.2.imp (fun hlt x hx y hy => Nat.ne_of_lt (hlt x hx y hy))


lemma nFrames_unit : nFrames 1 1 = 1 := by
  norm_num [nFrames]

lemma speaker_classes_unit : speaker_classes [⟨"A", 0, 1⟩] = ["A"] := rfl

lemma tf_unit : turns_to_frames [⟨"A", 0, 1⟩] 1 1 = [1] := by
  have hss := searchsorted_frameTimes (show (0:ℚ) < 1 by norm_num) 1
  have h0 : searchsorted (frameTimes 1 1) 0 = 0 := by rw [hss]; norm_num
  have h1 : searchsorted (frameTimes 1 1) 1 = 1 := by rw [hss]; norm_num
  have hact : speakerActive [⟨"A", 0, 1⟩] 1 1 0 0 = true := by
    unfold speakerActive
    rw [List.any_eq_true]
    exact ⟨⟨"A", 0, 1⟩, by simp, by simp [h0, h1, speaker_classes_unit]⟩
  have hraw : frameLabelRaw [⟨"A", 0, 1⟩] 1 1 0 = 1 := by
    unfold frameLabelRaw
    rw [speaker_classes_unit]
    simp [hact]
  unfold turns_to_frames
  rw [nFrames_unit]
  simp [List.range_succ, frameLabel, hraw]

lemma commonRecIds_pair :
    commonRecIds [("a", [⟨"A", 0, 1⟩]), ("b", [⟨"A", 0, 1⟩])]
      [("a", [⟨"A", 0, 1⟩]), ("b", [⟨"A", 0, 1⟩])] = ["a", "b"] := by
  have hab : ("a" : String) ≤ "b" := by
    have h : ("a" : String) < "b" := by norm_num; decide
    exact le_of_lt h
  unfold commonRecIds npUnique
  simp [List.insertionSort, List.orderedInsert, hab]

lemma blocks_pair :
    rttms_to_frames_blocks [("a", [⟨"A", 0, 1⟩]), ("b", [⟨"A", 0, 1⟩])]
      [("a", [⟨"A", 0, 1⟩]), ("b", [⟨"A", 0, 1⟩])] 1 =
      Except.ok ([[1], [2]], [[1], [2]]) := by
  unfold rttms_to_frames_blocks
  rw [commonRecIds_pair]
  have hta : turnsOf [("a", [⟨"A", 0, 1⟩]), ("b", [⟨"A", 0, 1⟩])] "a" = [⟨"A", 0, 1⟩] := rfl
  have htb : turnsOf [("a", [⟨"A", 0, 1⟩]), ("b", [⟨"A", 0, 1⟩])] "b" = [⟨"A", 0, 1⟩] := rfl
  simp only [List.map_cons, List.map_nil, hta, htb]
  rw [alignRecs]
  rw [show maxOffset [⟨"A", 0, 1⟩] = Except.ok 1 from rfl]
  dsimp only
  rw [min_self, tf_unit]
  simp only [List.map_cons, List.map_nil, Nat.add_zero]
  rw [show npMax [1] = Except.ok 1 from rfl]
  dsimp only
  rw [alignRecs]
  rw [show maxOffset [⟨"A", 0, 1⟩] = Except.ok 1 from rfl]
  dsimp only
  rw [min_self, tf_unit]
  simp only [List.map_cons, List.map_nil]
  rw [show npMax [1 + 1] = Except.ok 2 from rfl]
  dsimp only
  rw [alignRecs]

/-- C5 witness: the disjointness applied to a concrete two-recording input
whose offset blocks evaluate to [[1], [2]] on both streams. -/
theorem C5_witness :
    rttms_to_frames_blocks [("a", [⟨"A", 0, 1⟩]), ("b", [⟨"A", 0, 1⟩])]
      [("a", [⟨"A", 0, 1⟩]), ("b", [⟨"A", 0, 1⟩])] 1 =
      Except.ok ([[1], [2]], [[1], [2]]) ∧
    (([[1], [2]] : List (List ℕ)).Pairwise (fun b1 b2 => ∀ x ∈ b1, ∀ y ∈ b2, x ≠ y) ∧
     ([[1], [2]] : List (List ℕ)).Pairwise (fun b1 b2 => ∀ x ∈ b1, ∀ y ∈ b2, x ≠ y)) :=
  ⟨blocks_pair,
   C5_cross_recording_disjoint [("a", [⟨"A", 0, 1⟩]), ("b", [⟨"A", 0, 1⟩])]
     [("a", [⟨"A", 0, 1⟩]), ("b", [⟨"A", 0, 1⟩])] 1 [[1], [2]] [[1], [2]] blocks_pair⟩

/-- C9 counterexample: with a reference file containing the two recording
ids a and b and a system file containing only a, the single-file CLI path
succeeds, although more than one recording id is present in the reference
input, contradicting the claim that it always fails in that situation. -/
theorem C9_counterexample :
    (∃ v, cm_rttms_to_frames [("a", [⟨"A", 0, 1⟩]), ("b", [⟨"A", 0, 1⟩])]
      [("a", [⟨"A", 0, 1⟩])] 1 = Except.ok v) ∧
    1 < (([("a", [⟨"A", 0, 1⟩]), ("b", [⟨"A", 0, 1⟩])] :
      List (String × List Turn)).map Prod.fst).length := by
  constructor
  · have hc : commonRecIds [("a", [⟨"A", 0, 1⟩]), ("b", [⟨"A", 0, 1⟩])]
        [("a", [⟨"A", 0, 1⟩])] = ["a"] := rfl
    refine ⟨(turns_to_frames_str [⟨"A", 0, 1⟩] 1 1,
      turns_to_frames_str [⟨"A", 0, 1⟩] 1 1), ?_⟩
    unfold cm_rttms_to_frames
    rw [hc]
    rw [if_neg (by simp)]
    dsimp only [List.head?, Option.map, Option.getD]
    rw [show maxOffset [⟨"A", 0, 1⟩] = Except.ok 1 from rfl]
    dsimp only
    rw [min_self]
  · simp

/-- C9 amended: the multi-recording aligner fails when reference and system
share no recording id (the empty concatenation raises), and the single-file
CLI path fails exactly when the set of recording ids common to reference
and system does not have exactly one element, not whenever one input alone
has several ids. -/
theorem C9_guards :
    (∀ (ref sys : List (String × List Turn)) (step : ℚ),
      (∀ r ∈ ref.map Prod.fst, r ∉ sys.map Prod.fst) →
      rttms_to_frames ref sys step =
        Except.error ("need at least one array to concatenate")) ∧
    (∀ (ref sys : List (String × List Turn)) (step : ℚ),
      (commonRecIds ref sys).length ≠ 1 →
      cm_rttms_to_frames ref sys step =
        Except.error ("RTTM contains more than one file.")) := by
  constructor
  · intro ref sys step h
    have hfilter : (ref.map Prod.fst).filter
        (fun r => (sys.map Prod.fst).contains r) = [] := by
      rw [List.filter_eq_nil_iff]
      intro a ha
      simpa using h a ha
    have hcommon : commonRecIds ref sys = [] := by
      unfold commonRecIds npUnique
      rw [hfilter]
      rfl
    unfold rttms_to_frames rttms_to_frames_blocks
    rw [hcommon]
    rfl
  · intro ref sys step h
    unfold cm_rttms_to_frames
    rw [if_pos h]

/-- C9 witness: the guards applied to inputs sharing no recording id. -/
theorem C9_witness :
    (∀ r ∈ ([("a", [⟨"A", 0, 1⟩])] : List (String × List Turn)).map Prod.fst,
      r ∉ ([("b", [⟨"A", 0, 1⟩])] : List (String × List Turn)).map Prod.fst) ∧
    rttms_to_frames [("a", [⟨"A", 0, 1⟩])] [("b", [⟨"A", 0, 1⟩])] 1 =
      Except.error ("need at least one array to concatenate") ∧
    cm_rttms_to_frames [("a", [⟨"A", 0, 1⟩])] [("b", [⟨"A", 0, 1⟩])] 1 =
      Except.error ("RTTM contains more than one file.") := by
  have h1 : ∀ r ∈ ([("a", [⟨"A", 0, 1⟩])] : List (String × List Turn)).map Prod.fst,
      r ∉ ([("b", [⟨"A", 0, 1⟩])] : List (String × List Turn)).map Prod.fst := by
    simp
  refine ⟨h1, C9_guards.1 _ _ 1 h1, C9_guards.2 _ _ 1 ?_⟩
  rw [show commonRecIds [("a", [⟨"A", 0, 1⟩])] [("b", [⟨"A", 0, 1⟩])] = [] from rfl]
  simp



/-! ## Rational inequalities shared by the metric bounds -/

lemma sum_sq_le_sq_sum {ι : Type} (s : Finset ι) (p : ι → ℚ)
    (h : ∀ i ∈ s, 0 ≤ p i) :
    (∑ i ∈ s, p i ^ 2) ≤ (∑ i ∈ s, p i) ^ 2 := by
  have h1 : ∀ i ∈ s, p i ^ 2 ≤ p i * ∑ j ∈ s, p j := by
    intro i hi
    rw [sq]
    exact mul_le_mul_of_nonneg_left (Finset.single_le_sum h hi) (h i hi)
  calc (∑ i ∈ s, p i ^ 2) ≤ ∑ i ∈ s, p i * ∑ j ∈ s, p j := Finset.sum_le_sum h1
    _ = (∑ i ∈ s, p i) ^ 2 := by rw [← Finset.sum_mul]; ring

lemma EPS_pos : 0 < EPS := by norm_num [EPS]

lemma matTotal_eq_rowSums {m n : ℕ} (cm : Matrix (Fin m) (Fin n) ℕ) :
    matTotal cm = ∑ i, rowSum cm i := rfl

lemma matTotal_eq_colSums {m n : ℕ} (cm : Matrix (Fin m) (Fin n) ℕ) :
    matTotal cm = ∑ j, colSum cm j := Finset.sum_comm

lemma matTotal_pos {m n : ℕ} (cm : Matrix (Fin m) (Fin n) ℕ) (hm : 0 < m)
    (hr : ∀ i, 0 < rowSum cm i) : 0 < matTotal cm := by
  rw [matTotal_eq_rowSums]
  have h0 : (⟨0, hm⟩ : Fin m) ∈ Finset.univ := Finset.mem_univ _
  calc 0 < rowSum cm ⟨0, hm⟩ := hr _
    _ ≤ ∑ i, rowSum cm i := Finset.single_le_sum (fun i _ => Nat.zero_le _) h0

/-- C1: for a contingency matrix with a single system class and positive row
marginals, the epsilon term turns the 0/0 into EPS/EPS, so the tau direction
predicting the single-class side is exactly 1 (not 0), and the reverse
direction is EPS over the ref variation plus EPS, a strictly positive value
(which is 0 only in the EPS to 0 limit). -/
theorem C1_degenerate_tau {m : ℕ} (cm : Matrix (Fin m) (Fin 1) ℕ) (hm : 0 < m)
    (hr : ∀ i, 0 < rowSum cm i) :
    (gkTauCM cm).1 = 1 ∧
    (gkTauCM cm).2 =
      EPS / (1 - (∑ i, ((rowSum cm i : ℚ) / (matTotal cm : ℚ)) ^ 2) + EPS) ∧
    0 < (gkTauCM cm).2 := by
  have hNnat : 0 < matTotal cm := matTotal_pos cm hm hr
  have hN : (0:ℚ) < (matTotal cm : ℚ) := by exact_mod_cast hNnat
  set N : ℚ := (matTotal cm : ℚ) with hNdef
  have hrow : ∀ i, rowSum cm i = cm i 0 := by
    intro i
    rw [rowSum, Fin.sum_univ_one]
  have hcell : ∀ i, (0:ℚ) < (cm i 0 : ℚ) := by
    intro i
    have := hr i
    rw [hrow i] at this
    exact_mod_cast this
  have hsum1 : (∑ i, (cm i 0 : ℚ)) = N := by
    rw [hNdef, matTotal_eq_rowSums]
    push_cast
    exact Finset.sum_congr rfl (fun i _ => by rw [hrow i])
  have hmargsum : (∑ i, (cm i 0 : ℚ) / N) = 1 := by
    rw [← Finset.sum_div, hsum1, div_self (ne_of_gt hN)]
  simp only [gkTauCM, Fin.sum_univ_one]
  constructor
  · -- tau_ref_sys = 1
    have hbar : (∑ i, ((cm i 0 : ℚ) / N) ^ 2 / ((cm i 0 : ℚ) / N)) = 1 := by
      rw [show (∑ i, ((cm i 0 : ℚ) / N) ^ 2 / ((cm i 0 : ℚ) / N)) =
          ∑ i, (cm i 0 : ℚ) / N from
        Finset.sum_congr rfl (fun i _ => by
          have hxne : (cm i 0 : ℚ) / N ≠ 0 :=
            ne_of_gt (div_pos (hcell i) hN)
          rw [sq, mul_div_assoc, div_self hxne, mul_one])]
      exact hmargsum
    rw [hmargsum, hbar]
    have h1 : (1:ℚ) - 1 ^ 2 + EPS - (1 - 1) = EPS := by ring
    have h2 : (1:ℚ) - 1 ^ 2 + EPS = EPS := by ring
    rw [h1, h2, div_self (ne_of_gt EPS_pos)]
  constructor
  · -- tau_sys_ref value
    rw [hmargsum, div_one]
    have : (1 - ∑ i, ((cm i 0 : ℚ) / N) ^ 2 + EPS - (1 - ∑ i, ((cm i 0 : ℚ) / N) ^ 2)) =
        EPS := by ring
    rw [this]
    simp only [hrow]
  · -- positivity
    rw [hmargsum, div_one]
    have hle : (∑ i, ((cm i 0 : ℚ) / N) ^ 2) ≤ 1 := by
      have := sum_sq_le_sq_sum Finset.univ (fun i => (cm i 0 : ℚ) / N)
        (fun i _ => div_nonneg (le_of_lt (hcell i)) (le_of_lt hN))
      rw [hmargsum] at this
      simpa using this
    have hnum : (1 - ∑ i, ((cm i 0 : ℚ) / N) ^ 2 + EPS -
        (1 - ∑ i, ((cm i 0 : ℚ) / N) ^ 2)) = EPS := by ring
    rw [hnum]
    apply div_pos EPS_pos
    have := EPS_pos
    linarith

/-- C1 counterexample: the 2-by-1 contingency matrix of two reference
classes against a single system class has tau_ref_sys = 1 and
tau_sys_ref = 1/(2^51 + 1); neither tau direction is 0, contrary to the
claim that the degenerate direction returns 0. -/
theorem C1_counterexample :
    (gkTauCM (Matrix.of ![![1], ![1]] : Matrix (Fin 2) (Fin 1) ℕ)).1 ≠ 0 ∧
    (gkTauCM (Matrix.of ![![1], ![1]] : Matrix (Fin 2) (Fin 1) ℕ)).2 ≠ 0 := by
  have h : gkTauCM (Matrix.of ![![1], ![1]] : Matrix (Fin 2) (Fin 1) ℕ) =
      (1, 1 / (2 ^ 51 + 1)) := by
    simp only [gkTauCM, matTotal, rowSum, colSum, Fin.sum_univ_two, Fin.sum_univ_one,
      Matrix.of_apply, Matrix.cons_val_zero, Matrix.cons_val_one, Matrix.head_cons, EPS]
    norm_num
  rw [h]
  norm_num

/-- C1 witness: the degenerate-tau theorem applied to the 2-by-1 matrix with
rows 2 and 3. -/
theorem C1_witness :
    (0 < 2 ∧ ∀ i, 0 < rowSum (Matrix.of ![![2], ![3]] : Matrix (Fin 2) (Fin 1) ℕ) i) ∧
    ((gkTauCM (Matrix.of ![![2], ![3]] : Matrix (Fin 2) (Fin 1) ℕ)).1 = 1 ∧
     (gkTauCM (Matrix.of ![![2], ![3]] : Matrix (Fin 2) (Fin 1) ℕ)).2 =
       EPS / (1 - (∑ i, ((rowSum (Matrix.of ![![2], ![3]] : Matrix (Fin 2) (Fin 1) ℕ) i : ℚ) /
         (matTotal (Matrix.of ![![2], ![3]] : Matrix (Fin 2) (Fin 1) ℕ) : ℚ)) ^ 2) + EPS) ∧
     0 < (gkTauCM (Matrix.of ![![2], ![3]] : Matrix (Fin 2) (Fin 1) ℕ)).2) :=
  ⟨⟨by norm_num, by decide⟩,
   C1_degenerate_tau (Matrix.of ![![2], ![3]]) (by norm_num) (by decide)⟩



/-! ## The two-speaker overlap scenario of the spec -/

/-- The concrete scenario of the overlap-encoding property: speaker A talks
during seconds 2 to 5 and speaker B during seconds 4 to 6 of a 10-second
recording labeled at a 0.01-second step, so the two turns overlap for the
one second from 4 to 5. -/
def c8turns : List Turn := [⟨"A", 2, 5⟩, ⟨"B", 4, 6⟩]

lemma c8_classes : speaker_classes c8turns = ["A", "B"] := by
  have hab : ("A" : String) ≤ "B" := by
    have h : ("A" : String) < "B" := by norm_num; decide
    exact le_of_lt h
  unfold c8turns speaker_classes npUnique
  simp [List.insertionSort, List.orderedInsert, hab]

lemma c8_nFrames : nFrames 10 (1/100) = 1000 := by
  norm_num [nFrames]
  rfl

lemma c8_ss : ∀ v : ℚ, searchsorted (frameTimes (1/100) 1000) v =
    min ⌈v / (1/100)⌉₊ 1000 :=
  fun v => searchsorted_frameTimes (by norm_num) 1000 v

lemma c8_ss2 : searchsorted (frameTimes (1/100) 1000) 2 = 200 := by
  rw [c8_ss]
  norm_num [Nat.ceil_ofNat]

lemma c8_ss5 : searchsorted (frameTimes (1/100) 1000) 5 = 500 := by
  rw [c8_ss]
  norm_num [Nat.ceil_ofNat]

lemma c8_ss4 : searchsorted (frameTimes (1/100) 1000) 4 = 400 := by
  rw [c8_ss]
  norm_num [Nat.ceil_ofNat]

lemma c8_ss6 : searchsorted (frameTimes (1/100) 1000) 6 = 600 := by
  rw [c8_ss]
  norm_num [Nat.ceil_ofNat]

lemma c8_active0 (f : ℕ) :
    speakerActive c8turns (1/100) 1000 0 f = true ↔ 200 ≤ f ∧ f < 500 := by
  unfold speakerActive
  rw [List.any_eq_true]
  constructor
  · rintro ⟨t, ht, hb⟩
    simp only [Bool.and_eq_true, decide_eq_true_eq] at hb
    rcases hb with ⟨⟨hidx, h1⟩, h2⟩
    rcases List.mem_cons.mp ht with rfl | ht2
    · rw [c8_ss2] at h1
      rw [c8_ss5] at h2
      exact ⟨h1, h2⟩
    · rcases List.mem_cons.mp ht2 with rfl | ht3
      · rw [c8_classes] at hidx
        exact absurd hidx (by decide)
      · simp at ht3
  · rintro ⟨h1, h2⟩
    refine ⟨⟨"A", 2, 5⟩, by simp [c8turns], ?_⟩
    simp only [Bool.and_eq_true, decide_eq_true_eq]
    rw [c8_classes, c8_ss2, c8_ss5]
    exact ⟨⟨by decide, h1⟩, h2⟩

lemma c8_active1 (f : ℕ) :
    speakerActive c8turns (1/100) 1000 1 f = true ↔ 400 ≤ f ∧ f < 600 := by
  unfold speakerActive
  rw [List.any_eq_true]
  constructor
  · rintro ⟨t, ht, hb⟩
    simp only [Bool.and_eq_true, decide_eq_true_eq] at hb
    rcases hb with ⟨⟨hidx, h1⟩, h2⟩
    rcases List.mem_cons.mp ht with rfl | ht2
    · rw [c8_classes] at hidx
      exact absurd hidx (by decide)
    · rcases List.mem_cons.mp ht2 with rfl | ht3
      · rw [c8_ss4] at h1
        rw [c8_ss6] at h2
        exact ⟨h1, h2⟩
      · simp at ht3
  · rintro ⟨h1, h2⟩
    refine ⟨⟨"B", 4, 6⟩, by simp [c8turns], ?_⟩
    simp only [Bool.and_eq_true, decide_eq_true_eq]
    rw [c8_classes, c8_ss4, c8_ss6]
    exact ⟨⟨by decide, h1⟩, h2⟩

lemma c8_label (f : ℕ) :
    frameLabel c8turns (1/100) 1000 f =
      if 200 ≤ f ∧ f < 500 then (if 400 ≤ f ∧ f < 600 then 3 else 1)
      else (if 400 ≤ f ∧ f < 600 then 2 else 4) := by
  have hraw : frameLabelRaw c8turns (1/100) 1000 f =
      (if 200 ≤ f ∧ f < 500 then 1 else 0) + (if 400 ≤ f ∧ f < 600 then 2 else 0) := by
    unfold frameLabelRaw
    rw [c8_classes]
    show (∑ c ∈ Finset.range 2, if speakerActive c8turns (1/100) 1000 c f then 2 ^ c else 0) = _
    rw [Finset.sum_range_succ, Finset.sum_range_succ, Finset.sum_range_zero]
    have h0 : (if speakerActive c8turns (1/100) 1000 0 f then (2:ℕ) ^ 0 else 0) =
        if 200 ≤ f ∧ f < 500 then 1 else 0 := by
      by_cases h : 200 ≤ f ∧ f < 500
      · rw [if_pos ((c8_active0 f).mpr h), if_pos h]
        norm_num
      · rw [if_neg (fun hb => h ((c8_active0 f).mp hb)), if_neg h]
    have h1 : (if speakerActive c8turns (1/100) 1000 1 f then (2:ℕ) ^ 1 else 0) =
        if 400 ≤ f ∧ f < 600 then 2 else 0 := by
      by_cases h : 400 ≤ f ∧ f < 600
      · rw [if_pos ((c8_active1 f).mpr h), if_pos h]
        norm_num
      · rw [if_neg (fun hb => h ((c8_active1 f).mp hb)), if_neg h]
    rw [h0, h1]
    omega
  unfold frameLabel
  rw [hraw, c8_classes]
  by_cases hA : 200 ≤ f ∧ f < 500 <;> by_cases hB : 400 ≤ f ∧ f < 600 <;>
    simp [hA, hB]

lemma c8_decode4 : decodeLabel c8turns 4 = "non-speech" := by
  unfold decodeLabel
  rw [c8_classes]
  rfl

/-- C8: in the two-speaker overlap scenario (A from 2 to 5, B from 4 to 6,
10 seconds at step 0.01), the label of every frame in the overlap window
[400, 500) differs from the label of every A-only frame ([200, 400)) and
from the label of every B-only frame ([500, 600)), and every frame covered
by no turn decodes to the reserved non-speech class. -/
theorem C8_overlap_encoding (f fa fb g : ℕ)
    (hf1 : 400 ≤ f) (hf2 : f < 500)
    (ha1 : 200 ≤ fa) (ha2 : fa < 400)
    (hb1 : 500 ≤ fb) (hb2 : fb < 600)
    (hg : ∀ t ∈ c8turns, ¬ (searchsorted (frameTimes (1/100) 1000) t.onset ≤ g ∧
      g < searchsorted (frameTimes (1/100) 1000) t.offset)) :
    frameLabel c8turns (1/100) 1000 f ≠ frameLabel c8turns (1/100) 1000 fa ∧
    frameLabel c8turns (1/100) 1000 f ≠ frameLabel c8turns (1/100) 1000 fb ∧
    decodeLabel c8turns (frameLabel c8turns (1/100) 1000 g) = "non-speech" := by
  have hgA := hg ⟨"A", 2, 5⟩ (by simp [c8turns])
  have hgB := hg ⟨"B", 4, 6⟩ (by simp [c8turns])
  rw [c8_ss2, c8_ss5] at hgA
  rw [c8_ss4, c8_ss6] at hgB
  rw [c8_label f, c8_label fa, c8_label fb, c8_label g]
  refine ⟨?_, ?_, ?_⟩
  · have h1 : (200 ≤ f ∧ f < 500) ∧ (400 ≤ f ∧ f < 600) := by omega
    have h2 : (200 ≤ fa ∧ fa < 400) := ⟨ha1, ha2⟩
    simp only [if_pos h1.1, if_pos h1.2, if_pos (show 200 ≤ fa ∧ fa < 500 by omega),
      if_neg (show ¬ (400 ≤ fa ∧ fa < 600) by omega)]
    omega
  · have h1 : (200 ≤ f ∧ f < 500) ∧ (400 ≤ f ∧ f < 600) := by omega
    simp only [if_pos h1.1, if_pos h1.2, if_neg (show ¬ (200 ≤ fb ∧ fb < 500) by omega),
      if_pos (show 400 ≤ fb ∧ fb < 600 by omega)]
    omega
  · rw [if_neg (show ¬ (200 ≤ g ∧ g < 500) by omega),
      if_neg (show ¬ (400 ≤ g ∧ g < 600) by omega)]
    exact c8_decode4

/-- C8 witness: the overlap property applied to the concrete frames 450
(overlap), 300 (A only), 550 (B only) and 0 (silence). -/
theorem C8_witness :
    ((400 ≤ 450 ∧ 450 < 500) ∧ (200 ≤ 300 ∧ 300 < 400) ∧ (500 ≤ 550 ∧ 550 < 600) ∧
      (∀ t ∈ c8turns, ¬ (searchsorted (frameTimes (1/100) 1000) t.onset ≤ 0 ∧
        0 < searchsorted (frameTimes (1/100) 1000) t.offset))) ∧
    (frameLabel c8turns (1/100) 1000 450 ≠ frameLabel c8turns (1/100) 1000 300 ∧
     frameLabel c8turns (1/100) 1000 450 ≠ frameLabel c8turns (1/100) 1000 550 ∧
     decodeLabel c8turns (frameLabel c8turns (1/100) 1000 0) = "non-speech") := by
  have hg : ∀ t ∈ c8turns, ¬ (searchsorted (frameTimes (1/100) 1000) t.onset ≤ 0 ∧
      0 < searchsorted (frameTimes (1/100) 1000) t.offset) := by
    intro t ht
    rcases List.mem_cons.mp ht with rfl | ht2
    · rw [c8_ss2]
      omega
    · rcases List.mem_cons.mp ht2 with rfl | ht3
      · rw [c8_ss4]
        omega
      · simp at ht3
  exact ⟨⟨by omega, by omega, by omega, hg⟩,
    C8_overlap_encoding 450 300 550 0 (by omega) (by omega) (by omega) (by omega)
      (by omega) (by omega) hg⟩



/-! ## Logarithm helpers -/

lemma logF_mul (nats : Bool) {x y : ℝ} (hx : x ≠ 0) (hy : y ≠ 0) :
    logF nats (x * y) = logF nats x + logF nats y := by
  cases nats
  · simp only [logF, Bool.false_eq_true, if_false, Real.logb, Real.log_mul hx hy, add_div]
  · simp only [logF, if_true, Real.log_mul hx hy]

lemma logF_div (nats : Bool) {x y : ℝ} (hx : x ≠ 0) (hy : y ≠ 0) :
    logF nats (x / y) = logF nats x - logF nats y := by
  cases nats
  · simp only [logF, Bool.false_eq_true, if_false, Real.logb, Real.log_div hx hy, sub_div]
  · simp only [logF, if_true, Real.log_div hx hy]

lemma logF_le_logF (nats : Bool) {x y : ℝ} (hx : 0 < x) (hxy : x ≤ y) :
    logF nats x ≤ logF nats y := by
  have hlog : Real.log x ≤ Real.log y := Real.log_le_log hx hxy
  cases nats
  · simp only [logF, Bool.false_eq_true, if_false, Real.logb]
    exact div_le_div_of_nonneg_right hlog (Real.log_pos (by norm_num)).le
  · simpa only [logF, if_true] using hlog

/-! ## Diagonal contingency matrices, the identity-labeling case -/

lemma diag_rowSum {k : ℕ} (cm : Matrix (Fin k) (Fin k) ℕ)
    (hdiag : ∀ i j, i ≠ j → cm i j = 0) (i : Fin k) : rowSum cm i = cm i i := by
  rw [rowSum]
  exact Finset.sum_eq_single_of_mem i (Finset.mem_univ i)
    (fun j _ hj => hdiag i j (Ne.symm hj))

lemma diag_colSum {k : ℕ} (cm : Matrix (Fin k) (Fin k) ℕ)
    (hdiag : ∀ i j, i ≠ j → cm i j = 0) (j : Fin k) : colSum cm j = cm j j := by
  rw [colSum]
  exact Finset.sum_eq_single_of_mem j (Finset.mem_univ j) (fun i _ hi => hdiag i j hi)

lemma diag_total {k : ℕ} (cm : Matrix (Fin k) (Fin k) ℕ)
    (hdiag : ∀ i j, i ≠ j → cm i j = 0) : matTotal cm = ∑ i, cm i i := by
  rw [matTotal_eq_rowSums]
  exact Finset.sum_congr rfl (fun i _ => diag_rowSum cm hdiag i)

lemma bcubed_diag {k : ℕ} (cm : Matrix (Fin k) (Fin k) ℕ)
    (hdiag : ∀ i j, i ≠ j → cm i j = 0) (hpos : ∀ i, 0 < cm i i) (hk : 0 < k) :
    bcubedCM cm = (1, 1, 1) := by
  have hN : 0 < matTotal cm :=
    matTotal_pos cm hk (fun i => by rw [diag_rowSum cm hdiag]; exact hpos i)
  have hNQ : (0:ℚ) < (matTotal cm : ℚ) := by exact_mod_cast hN
  have hsum : (∑ i, (cm i i : ℚ)) = (matTotal cm : ℚ) := by
    rw [diag_total cm hdiag]
    push_cast
    rfl
  have hcell : ∀ i, (0:ℚ) < (cm i i : ℚ) := fun i => by exact_mod_cast hpos i
  have hprec : (∑ i, ∑ j, ((cm i j : ℚ) / (matTotal cm : ℚ)) *
      ((cm i j : ℚ) / (colSum cm j : ℚ))) = 1 := by
    have hinner : ∀ i, (∑ j, ((cm i j : ℚ) / (matTotal cm : ℚ)) *
        ((cm i j : ℚ) / (colSum cm j : ℚ))) = (cm i i : ℚ) / (matTotal cm : ℚ) := by
      intro i
      rw [Finset.sum_eq_single_of_mem i (Finset.mem_univ i)
        (fun j _ hj => by rw [hdiag i j (Ne.symm hj)]; simp)]
      rw [diag_colSum cm hdiag, div_self (ne_of_gt (hcell i)), mul_one]
    rw [Finset.sum_congr rfl (fun i _ => hinner i), ← Finset.sum_div, hsum,
      div_self (ne_of_gt hNQ)]
  have hrecl : (∑ i, ∑ j, ((cm i j : ℚ) / (matTotal cm : ℚ)) *
      ((cm i j : ℚ) / (rowSum cm i : ℚ))) = 1 := by
    have hinner : ∀ i, (∑ j, ((cm i j : ℚ) / (matTotal cm : ℚ)) *
        ((cm i j : ℚ) / (rowSum cm i : ℚ))) = (cm i i : ℚ) / (matTotal cm : ℚ) := by
      intro i
      rw [Finset.sum_eq_single_of_mem i (Finset.mem_univ i)
        (fun j _ hj => by rw [hdiag i j (Ne.symm hj)]; simp)]
      rw [diag_rowSum cm hdiag, div_self (ne_of_gt (hcell i)), mul_one]
    rw [Finset.sum_congr rfl (fun i _ => hinner i), ← Finset.sum_div, hsum,
      div_self (ne_of_gt hNQ)]
  show (_, _, _) = ((1:ℚ), (1:ℚ), (1:ℚ))
  rw [hprec, hrecl]
  norm_num

lemma gkTau_diag {k : ℕ} (cm : Matrix (Fin k) (Fin k) ℕ)
    (hdiag : ∀ i j, i ≠ j → cm i j = 0) (hpos : ∀ i, 0 < cm i i) (hk : 0 < k) :
    gkTauCM cm = (1, 1) := by
  have hN : 0 < matTotal cm :=
    matTotal_pos cm hk (fun i => by rw [diag_rowSum cm hdiag]; exact hpos i)
  have hNQ : (0:ℚ) < (matTotal cm : ℚ) := by exact_mod_cast hN
  have hcell : ∀ i : Fin k, (0:ℚ) < (cm i i : ℚ) := fun i => by exact_mod_cast hpos i
  have hppos : ∀ i : Fin k, 0 < (cm i i : ℚ) / (matTotal cm : ℚ) :=
    fun i => div_pos (hcell i) hNQ
  have hsumQ : (∑ i, (cm i i : ℚ)) = (matTotal cm : ℚ) := by
    rw [diag_total cm hdiag]
    push_cast
    rfl
  have hpsum : (∑ i, (cm i i : ℚ) / (matTotal cm : ℚ)) = 1 := by
    rw [← Finset.sum_div, hsumQ, div_self (ne_of_gt hNQ)]
  have hrow : ∀ i : Fin k, (∑ j, (cm i j : ℚ) / (matTotal cm : ℚ)) =
      (cm i i : ℚ) / (matTotal cm : ℚ) := by
    intro i
    exact Finset.sum_eq_single_of_mem i (Finset.mem_univ i)
      (fun j _ hj => by rw [hdiag i j (Ne.symm hj)]; simp)
  have hcol : ∀ j : Fin k, (∑ i, (cm i j : ℚ) / (matTotal cm : ℚ)) =
      (cm j j : ℚ) / (matTotal cm : ℚ) := by
    intro j
    exact Finset.sum_eq_single_of_mem j (Finset.mem_univ j)
      (fun i _ hi => by rw [hdiag i j hi]; simp)
  have hrowsq : ∀ i : Fin k, (∑ j, ((cm i j : ℚ) / (matTotal cm : ℚ)) ^ 2) =
      ((cm i i : ℚ) / (matTotal cm : ℚ)) ^ 2 := by
    intro i
    exact Finset.sum_eq_single_of_mem i (Finset.mem_univ i)
      (fun j _ hj => by rw [hdiag i j (Ne.symm hj)]; simp)
  have hcolsq : ∀ j : Fin k, (∑ i, ((cm i j : ℚ) / (matTotal cm : ℚ)) ^ 2) =
      ((cm j j : ℚ) / (matTotal cm : ℚ)) ^ 2 := by
    intro j
    exact Finset.sum_eq_single_of_mem j (Finset.mem_univ j)
      (fun i _ hi => by rw [hdiag i j hi]; simp)
  have hsq1 : (∑ i, ((cm i i : ℚ) / (matTotal cm : ℚ)) ^ 2) ≤ 1 := by
    have h := sum_sq_le_sq_sum Finset.univ
      (fun i => (cm i i : ℚ) / (matTotal cm : ℚ)) (fun i _ => le_of_lt (hppos i))
    rw [hpsum] at h
    simpa using h
  have hvy : (0:ℚ) < 1 - (∑ i, ((cm i i : ℚ) / (matTotal cm : ℚ)) ^ 2) + EPS := by
    have := EPS_pos
    linarith
  have hbar : (∑ i, ((cm i i : ℚ) / (matTotal cm : ℚ)) ^ 2 /
      ((cm i i : ℚ) / (matTotal cm : ℚ))) = 1 := by
    rw [Finset.sum_congr rfl (fun i (_ : i ∈ Finset.univ) => by
      rw [sq, mul_div_assoc, div_self (ne_of_gt (hppos i)), mul_one])]
    exact hpsum
  have Ecol : (∑ x : Fin k, (∑ y : Fin k, (cm y x : ℚ) / (matTotal cm : ℚ)) ^ 2) =
      ∑ x : Fin k, ((cm x x : ℚ) / (matTotal cm : ℚ)) ^ 2 :=
    Finset.sum_congr rfl (fun x _ => by rw [hcol x])
  have Erow : (∑ x : Fin k, (∑ y : Fin k, (cm x y : ℚ) / (matTotal cm : ℚ)) ^ 2) =
      ∑ x : Fin k, ((cm x x : ℚ) / (matTotal cm : ℚ)) ^ 2 :=
    Finset.sum_congr rfl (fun x _ => by rw [hrow x])
  have Ebar1 : (∑ x : Fin k, (∑ y : Fin k, ((cm x y : ℚ) / (matTotal cm : ℚ)) ^ 2) /
      (∑ y : Fin k, (cm x y : ℚ) / (matTotal cm : ℚ))) = 1 := by
    rw [Finset.sum_congr rfl (fun x (_ : x ∈ Finset.univ) => by rw [hrowsq x, hrow x])]
    exact hbar
  have Ebar2 : (∑ x : Fin k, (∑ y : Fin k, ((cm y x : ℚ) / (matTotal cm : ℚ)) ^ 2) /
      (∑ y : Fin k, (cm y x : ℚ) / (matTotal cm : ℚ))) = 1 := by
    rw [Finset.sum_congr rfl (fun x (_ : x ∈ Finset.univ) => by rw [hcolsq x, hcol x])]
    exact hbar
  simp only [gkTauCM]
  rw [Prod.mk.injEq]
  constructor
  · rw [Ecol, Ebar1]
    rw [show (1:ℚ) - 1 = 0 from by norm_num, sub_zero, div_self (ne_of_gt hvy)]
  · rw [Erow, Ebar2]
    rw [show (1:ℚ) - 1 = 0 from by norm_num, sub_zero, div_self (ne_of_gt hvy)]


lemma ce_diag {k : ℕ} (cm : Matrix (Fin k) (Fin k) ℕ) (nats : Bool)
    (hdiag : ∀ i j, i ≠ j → cm i j = 0) :
    conditionalEntropyCM cm nats = 0 := by
  simp only [conditionalEntropyCM]
  apply Finset.sum_eq_zero
  intro p hp
  rw [nzCells, Finset.mem_filter] at hp
  have heq : p.1 = p.2 := by
    by_contra h2
    exact hp.2 (hdiag p.1 p.2 h2)
  have h1 : colSum cm p.2 = cm p.1 p.2 := by
    rw [diag_colSum cm hdiag, ← heq]
  have h2 : (∑ j, colSum cm j) = matTotal cm := (matTotal_eq_colSums cm).symm
  rw [h1, h2]
  ring

lemma nz_diag {k : ℕ} (cm : Matrix (Fin k) (Fin k) ℕ)
    (hdiag : ∀ i j, i ≠ j → cm i j = 0) (hpos : ∀ i, 0 < cm i i) :
    nzCells cm = Finset.univ.image (fun i : Fin k => (i, i)) := by
  ext p
  rw [nzCells, Finset.mem_filter, Finset.mem_image]
  constructor
  · rintro ⟨_, hne⟩
    have heq : p.1 = p.2 := by
      by_contra h2
      exact hne (hdiag p.1 p.2 h2)
    exact ⟨p.1, Finset.mem_univ _, by rw [Prod.ext_iff]; exact ⟨rfl, heq⟩⟩
  · rintro ⟨i, _, hip⟩
    rw [← hip]
    exact ⟨Finset.mem_univ _, Nat.pos_iff_ne_zero.mp (hpos i)⟩

lemma mi_diag {k : ℕ} (cm : Matrix (Fin k) (Fin k) ℕ) (nats : Bool)
    (hdiag : ∀ i j, i ≠ j → cm i j = 0) (hpos : ∀ i, 0 < cm i i) (hk : 0 < k) :
    (mutualInformationCM cm nats).1 =
      ∑ i, ((cm i i : ℝ) / (matTotal cm : ℝ)) *
        (logF nats (matTotal cm : ℝ) - logF nats (cm i i : ℝ)) ∧
    (mutualInformationCM cm nats).2 =
      (mutualInformationCM cm nats).1 /
        Real.sqrt ((mutualInformationCM cm nats).1 * (mutualInformationCM cm nats).1 +
          ((EPS : ℚ) : ℝ)) := by
  have hN : 0 < matTotal cm :=
    matTotal_pos cm hk (fun i => by rw [diag_rowSum cm hdiag]; exact hpos i)
  have hNR : (0:ℝ) < (matTotal cm : ℝ) := by exact_mod_cast hN
  have hcellR : ∀ i : Fin k, (0:ℝ) < (cm i i : ℝ) := fun i => by exact_mod_cast hpos i
  have hinj : Function.Injective (fun i : Fin k => (i, i)) := by
    intro a b hab
    exact (Prod.ext_iff.mp hab).1
  have hmi : (mutualInformationCM cm nats).1 =
      ∑ i, ((cm i i : ℝ) / (matTotal cm : ℝ)) *
        (logF nats (matTotal cm : ℝ) - logF nats (cm i i : ℝ)) := by
    show (∑ p ∈ nzCells cm,
        ((cm p.1 p.2 : ℝ) / (matTotal cm : ℝ)) *
          (logF nats (cm p.1 p.2 : ℝ) -
            logF nats ((rowSum cm p.1 : ℝ) * (colSum cm p.2 : ℝ)) +
            logF nats (matTotal cm : ℝ))) = _
    rw [nz_diag cm hdiag hpos, Finset.sum_image (fun a _ b _ hab => hinj hab)]
    apply Finset.sum_congr rfl
    intro i _
    rw [diag_rowSum cm hdiag, diag_colSum cm hdiag]
    rw [logF_mul nats (ne_of_gt (hcellR i)) (ne_of_gt (hcellR i))]
    ring
  constructor
  · exact hmi
  · show (∑ p ∈ nzCells cm, _) /
        Real.sqrt ((-∑ i ∈ Finset.univ.filter
            (fun i : Fin k => 0 < (rowSum cm i : ℝ) / (matTotal cm : ℝ)),
            ((rowSum cm i : ℝ) / (matTotal cm : ℝ)) *
              logF nats ((rowSum cm i : ℝ) / (matTotal cm : ℝ))) *
          (-∑ j ∈ Finset.univ.filter
            (fun j : Fin k => 0 < (colSum cm j : ℝ) / (matTotal cm : ℝ)),
            ((colSum cm j : ℝ) / (matTotal cm : ℝ)) *
              logF nats ((colSum cm j : ℝ) / (matTotal cm : ℝ))) + ((EPS : ℚ) : ℝ)) = _
    have hH : ∀ i : Fin k,
        ((cm i i : ℝ) / (matTotal cm : ℝ)) *
          (logF nats (matTotal cm : ℝ) - logF nats (cm i i : ℝ)) =
        -(((cm i i : ℝ) / (matTotal cm : ℝ)) *
          logF nats ((cm i i : ℝ) / (matTotal cm : ℝ))) := by
      intro i
      rw [logF_div nats (ne_of_gt (hcellR i)) (ne_of_gt hNR)]
      ring
    have hrefFilter : Finset.univ.filter
        (fun i : Fin k => 0 < (rowSum cm i : ℝ) / (matTotal cm : ℝ)) = Finset.univ := by
      apply Finset.filter_true_of_mem
      intro i _
      rw [diag_rowSum cm hdiag]
      exact div_pos (hcellR i) hNR
    have hcolFilter : Finset.univ.filter
        (fun j : Fin k => 0 < (colSum cm j : ℝ) / (matTotal cm : ℝ)) = Finset.univ := by
      apply Finset.filter_true_of_mem
      intro j _
      rw [diag_colSum cm hdiag]
      exact div_pos (hcellR j) hNR
    have hhr : (-∑ i ∈ Finset.univ.filter
        (fun i : Fin k => 0 < (rowSum cm i : ℝ) / (matTotal cm : ℝ)),
        ((rowSum cm i : ℝ) / (matTotal cm : ℝ)) *
          logF nats ((rowSum cm i : ℝ) / (matTotal cm : ℝ))) =
        ∑ i, ((cm i i : ℝ) / (matTotal cm : ℝ)) *
          (logF nats (matTotal cm : ℝ) - logF nats (cm i i : ℝ)) := by
      rw [hrefFilter, ← Finset.sum_neg_distrib]
      apply Finset.sum_congr rfl
      intro i _
      rw [diag_rowSum cm hdiag, hH i]
    have hhc : (-∑ j ∈ Finset.univ.filter
        (fun j : Fin k => 0 < (colSum cm j : ℝ) / (matTotal cm : ℝ)),
        ((colSum cm j : ℝ) / (matTotal cm : ℝ)) *
          logF nats ((colSum cm j : ℝ) / (matTotal cm : ℝ))) =
        ∑ i, ((cm i i : ℝ) / (matTotal cm : ℝ)) *
          (logF nats (matTotal cm : ℝ) - logF nats (cm i i : ℝ)) := by
      rw [hcolFilter, ← Finset.sum_neg_distrib]
      apply Finset.sum_congr rfl
      intro j _
      rw [diag_colSum cm hdiag, hH j]
    rw [hhr, hhc, ← hmi]
    rfl


lemma countP_zip_self {α : Type} (xs : List α) (q : α × α → Bool) :
    (xs.zip xs).countP q = xs.countP (fun x => q (x, x)) := by
  induction xs with
  | nil => rfl
  | cons x xs ih => rw [List.zip_cons_cons, List.countP_cons, List.countP_cons, ih]

lemma contingency_self_offdiag {α : Type} [LinearOrder α] [DecidableEq α]
    (xs : List α) (i j : Fin (npUnique xs).length) (hij : i ≠ j) :
    contingency_matrix xs xs i j = 0 := by
  have hne : (npUnique xs).get i ≠ (npUnique xs).get j := by
    intro h
    exact hij ((List.nodup_iff_injective_get.mp (npUnique_nodup xs)) h)
  show contingency_cell xs xs ((npUnique xs).get i) ((npUnique xs).get j) = 0
  unfold contingency_cell
  rw [countP_zip_self]
  rw [List.countP_eq_zero]
  intro x _
  simp only [Bool.and_eq_true, decide_eq_true_eq, not_and]
  rintro rfl h2
  exact hne (h2 ▸ rfl)

lemma contingency_self_diag {α : Type} [LinearOrder α] [DecidableEq α]
    (xs : List α) (i : Fin (npUnique xs).length) :
    contingency_matrix xs xs i i = xs.count ((npUnique xs).get i) := by
  show contingency_cell xs xs ((npUnique xs).get i) ((npUnique xs).get i) = _
  unfold contingency_cell
  rw [countP_zip_self]
  rw [List.count]
  apply List.countP_congr
  intro x _
  simp

/-- C3 counterexample: on the identical constant label pair [0, 0] the
normalized mutual information is 0, not 1 (both marginal entropies vanish
and the epsilon-guarded denominator makes the quotient 0 rather than 1). -/
theorem C3_counterexample :
    (mutual_information ([0, 0] : List ℕ) [0, 0] none false).2 = 0 ∧
    (mutual_information ([0, 0] : List ℕ) [0, 0] none false).2 ≠ 1 := by
  have hdiag : ∀ i j, i ≠ j → contingency_matrix ([0, 0] : List ℕ) [0, 0] i j = 0 := by
    decide
  have hpos : ∀ i, 0 < contingency_matrix ([0, 0] : List ℕ) [0, 0] i i := by decide
  have hk : 0 < (npUnique ([0, 0] : List ℕ)).length := by decide
  have hd := mi_diag (contingency_matrix ([0, 0] : List ℕ) [0, 0]) false hdiag hpos hk
  have hcm : ∀ i, contingency_matrix ([0, 0] : List ℕ) [0, 0] i i = 2 := by decide
  have hN : matTotal (contingency_matrix ([0, 0] : List ℕ) [0, 0]) = 2 := by decide
  have hmi0 : (mutual_information ([0, 0] : List ℕ) [0, 0] none false).1 = 0 := by
    show (mutualInformationCM (contingency_matrix ([0, 0] : List ℕ) [0, 0]) false).1 = 0
    rw [hd.1]
    apply Finset.sum_eq_zero
    intro i _
    rw [hcm i, hN, sub_self, mul_zero]
  have hnmi : (mutual_information ([0, 0] : List ℕ) [0, 0] none false).2 = 0 := by
    show (mutualInformationCM (contingency_matrix ([0, 0] : List ℕ) [0, 0]) false).2 = 0
    rw [hd.2]
    have h1 : (mutualInformationCM (contingency_matrix ([0, 0] : List ℕ) [0, 0]) false).1 =
        0 := hmi0
    rw [h1, zero_div]
  exact ⟨hnmi, by rw [hnmi]; norm_num⟩

/-- C3 amended: for every non-empty pair of identical label sequences,
B-cubed precision, recall and F1 are 1, both tau directions are 1, the
conditional entropy is 0, and the mutual information mi is the (nonnegative)
marginal entropy while the normalized mutual information equals
mi / sqrt(mi^2 + EPS), which is strictly below 1 (and equal to 0, not 1,
when the sequences hold a single distinct label); NMI is within floating
tolerance of 1 only when the marginal entropy is well away from 0. -/
theorem C3_identity {α : Type} [LinearOrder α] [DecidableEq α] (xs : List α)
    (hne : xs ≠ []) (nats : Bool) :
    bcubed xs xs none = (1, 1, 1) ∧
    goodman_kruskal_tau xs xs none = (1, 1) ∧
    conditional_entropy xs xs none nats = 0 ∧
    (0 ≤ (mutual_information xs xs none nats).1 ∧
     (mutual_information xs xs none nats).2 =
       (mutual_information xs xs none nats).1 /
         Real.sqrt ((mutual_information xs xs none nats).1 *
           (mutual_information xs xs none nats).1 + ((EPS : ℚ) : ℝ)) ∧
     (mutual_information xs xs none nats).2 < 1 ∧
     ((npUnique xs).length = 1 → (mutual_information xs xs none nats).2 = 0)) := by
  have hdiag : ∀ i j, i ≠ j → contingency_matrix xs xs i j = 0 :=
    fun i j hij => contingency_self_offdiag xs i j hij
  have hpos : ∀ i, 0 < contingency_matrix xs xs i i := by
    intro i
    rw [contingency_self_diag xs i]
    rw [List.count_pos_iff]
    exact (npUnique_mem xs _).mp (List.get_mem _ _ i.2)
  have hk : 0 < (npUnique xs).length := by
    rcases List.exists_mem_of_ne_nil xs hne with ⟨a, ha⟩
    exact List.length_pos.mpr (List.ne_nil_of_mem ((npUnique_mem xs a).mpr ha))
  have hN : 0 < matTotal (contingency_matrix xs xs) :=
    matTotal_pos _ hk (fun i => by
      rw [diag_rowSum _ hdiag]
      exact hpos i)
  have hNR : (0:ℝ) < (matTotal (contingency_matrix xs xs) : ℝ) := by exact_mod_cast hN
  have hcellR : ∀ i, (0:ℝ) < (contingency_matrix xs xs i i : ℝ) :=
    fun i => by exact_mod_cast hpos i
  have hd := mi_diag (contingency_matrix xs xs) nats hdiag hpos hk
  have hcmle : ∀ i, contingency_matrix xs xs i i ≤ matTotal (contingency_matrix xs xs) := by
    intro i
    rw [diag_total _ hdiag]
    exact Finset.single_le_sum
      (fun j (_ : j ∈ Finset.univ) => Nat.zero_le (contingency_matrix xs xs j j))
      (Finset.mem_univ i)
  have hmi0 : 0 ≤ (mutual_information xs xs none nats).1 := by
    show 0 ≤ (mutualInformationCM (contingency_matrix xs xs) nats).1
    rw [hd.1]
    apply Finset.sum_nonneg
    intro i _
    apply mul_nonneg (div_nonneg (le_of_lt (hcellR i)) (le_of_lt hNR))
    rw [sub_nonneg]
    exact logF_le_logF nats (hcellR i) (by exact_mod_cast hcmle i)
  have hepsR : (0:ℝ) < ((EPS : ℚ) : ℝ) := by exact_mod_cast EPS_pos
  refine ⟨bcubed_diag _ hdiag hpos hk, gkTau_diag _ hdiag hpos hk,
    ce_diag _ nats hdiag, hmi0, hd.2, ?_, ?_⟩
  · -- nmi < 1
    show (mutualInformationCM (contingency_matrix xs xs) nats).2 < 1
    rw [hd.2]
    set mi := (mutualInformationCM (contingency_matrix xs xs) nats).1
    have hlt : mi < Real.sqrt (mi * mi + ((EPS : ℚ) : ℝ)) := by
      calc mi = Real.sqrt (mi * mi) := (Real.sqrt_mul_self hmi0).symm
        _ < Real.sqrt (mi * mi + ((EPS : ℚ) : ℝ)) := by
          apply Real.sqrt_lt_sqrt (mul_self_nonneg mi)
          linarith
    apply (div_lt_one ?_).mpr hlt
    apply Real.sqrt_pos.mpr
    have := mul_self_nonneg mi
    linarith
  · -- single-class NMI = 0
    intro h1
    have hcard : (Finset.univ : Finset (Fin (npUnique xs).length)).card = 1 := by
      rw [Finset.card_univ, Fintype.card_fin]
      exact h1
    obtain ⟨a, ha⟩ := Finset.card_eq_one.mp hcard
    have hNa : matTotal (contingency_matrix xs xs) = contingency_matrix xs xs a a := by
      rw [diag_total _ hdiag, ha, Finset.sum_singleton]
    have hmieq : (mutual_information xs xs none nats).1 = 0 := by
      show (mutualInformationCM (contingency_matrix xs xs) nats).1 = 0
      rw [hd.1, ha, Finset.sum_singleton, hNa, sub_self, mul_zero]
    show (mutualInformationCM (contingency_matrix xs xs) nats).2 = 0
    rw [hd.2]
    have : (mutualInformationCM (contingency_matrix xs xs) nats).1 = 0 := hmieq
    rw [this, zero_div]

/-- C3 witness: the amended identity properties at the two-class sequence
[0, 1] in bits. -/
theorem C3_witness :
    (([0, 1] : List ℕ) ≠ []) ∧
    (bcubed ([0, 1] : List ℕ) [0, 1] none = (1, 1, 1) ∧
     goodman_kruskal_tau ([0, 1] : List ℕ) [0, 1] none = (1, 1) ∧
     conditional_entropy ([0, 1] : List ℕ) [0, 1] none false = 0 ∧
     (0 ≤ (mutual_information ([0, 1] : List ℕ) [0, 1] none false).1 ∧
      (mutual_information ([0, 1] : List ℕ) [0, 1] none false).2 =
        (mutual_information ([0, 1] : List ℕ) [0, 1] none false).1 /
          Real.sqrt ((mutual_information ([0, 1] : List ℕ) [0, 1] none false).1 *
            (mutual_information ([0, 1] : List ℕ) [0, 1] none false).1 + ((EPS : ℚ) : ℝ)) ∧
      (mutual_information ([0, 1] : List ℕ) [0, 1] none false).2 < 1 ∧
      ((npUnique ([0, 1] : List ℕ)).length = 1 →
        (mutual_information ([0, 1] : List ℕ) [0, 1] none false).2 = 0))) :=
  ⟨by decide, C3_identity [0, 1] (by decide) false⟩



/-! ## Bounds of the B-cubed and tau statistics -/

lemma cell_le_colSum {m n : ℕ} (cm : Matrix (Fin m) (Fin n) ℕ) (i : Fin m) (j : Fin n) :
    cm i j ≤ colSum cm j :=
  Finset.single_le_sum (fun a (_ : a ∈ Finset.univ) => Nat.zero_le (cm a j))
    (Finset.mem_univ i)

lemma cell_le_rowSum {m n : ℕ} (cm : Matrix (Fin m) (Fin n) ℕ) (i : Fin m) (j : Fin n) :
    cm i j ≤ rowSum cm i :=
  Finset.single_le_sum (fun b (_ : b ∈ Finset.univ) => Nat.zero_le (cm i b))
    (Finset.mem_univ j)

lemma cast_total {m n : ℕ} (cm : Matrix (Fin m) (Fin n) ℕ) :
    ((matTotal cm : ℕ) : ℚ) = ∑ i, ∑ j, (cm i j : ℚ) := by
  rw [matTotal]
  push_cast
  rfl

lemma sum_cells_div_N {m n : ℕ} (cm : Matrix (Fin m) (Fin n) ℕ)
    (hN : (0:ℚ) < (matTotal cm : ℚ)) :
    (∑ i, ∑ j, (cm i j : ℚ) / (matTotal cm : ℚ)) = 1 := by
  rw [show (∑ i, ∑ j, (cm i j : ℚ) / (matTotal cm : ℚ)) =
      ∑ i, (∑ j, (cm i j : ℚ)) / (matTotal cm : ℚ) from
    Finset.sum_congr rfl (fun i _ => by rw [Finset.sum_div]),
    ← Finset.sum_div, ← cast_total, div_self (ne_of_gt hN)]

lemma bcubed_bounds {m n : ℕ} (cm : Matrix (Fin m) (Fin n) ℕ)
    (hm : 0 < m) (hn : 0 < n)
    (hr : ∀ i, 0 < rowSum cm i) (hc : ∀ j, 0 < colSum cm j) :
    0 < (bcubedCM cm).1 ∧ (bcubedCM cm).1 ≤ 1 ∧
    0 < (bcubedCM cm).2.1 ∧ (bcubedCM cm).2.1 ≤ 1 ∧
    0 < (bcubedCM cm).2.2 ∧ (bcubedCM cm).2.2 ≤ 1 := by
  have hN : (0:ℚ) < (matTotal cm : ℚ) := by
    exact_mod_cast matTotal_pos cm hm hr
  have hcolQ : ∀ j, (0:ℚ) < (colSum cm j : ℚ) := fun j => by exact_mod_cast hc j
  have hrowQ : ∀ i, (0:ℚ) < (rowSum cm i : ℚ) := fun i => by exact_mod_cast hr i
  have hterm_nonneg : ∀ (i : Fin m) (j : Fin n),
      0 ≤ ((cm i j : ℚ) / (matTotal cm : ℚ)) * ((cm i j : ℚ) / (colSum cm j : ℚ)) :=
    fun i j => mul_nonneg (div_nonneg (Nat.cast_nonneg _) (le_of_lt hN))
      (div_nonneg (Nat.cast_nonneg _) (le_of_lt (hcolQ j)))
  have hterm_nonneg2 : ∀ (i : Fin m) (j : Fin n),
      0 ≤ ((cm i j : ℚ) / (matTotal cm : ℚ)) * ((cm i j : ℚ) / (rowSum cm i : ℚ)) :=
    fun i j => mul_nonneg (div_nonneg (Nat.cast_nonneg _) (le_of_lt hN))
      (div_nonneg (Nat.cast_nonneg _) (le_of_lt (hrowQ i)))
  -- a strictly positive cell in the first column, for strict positivity
  obtain ⟨i0, hi0⟩ : ∃ i, 0 < cm i ⟨0, hn⟩ := by
    by_contra hno
    push_neg at hno
    have : colSum cm ⟨0, hn⟩ = 0 :=
      Finset.sum_eq_zero (fun i _ => Nat.le_zero.mp (hno i))
    exact absurd this (Nat.pos_iff_ne_zero.mp (hc _))
  have hcell0 : (0:ℚ) < (cm i0 ⟨0, hn⟩ : ℚ) := by exact_mod_cast hi0
  have hprec_pos : 0 < ∑ i, ∑ j, ((cm i j : ℚ) / (matTotal cm : ℚ)) *
      ((cm i j : ℚ) / (colSum cm j : ℚ)) := by
    have htermpos : 0 < ((cm i0 ⟨0, hn⟩ : ℚ) / (matTotal cm : ℚ)) *
        ((cm i0 ⟨0, hn⟩ : ℚ) / (colSum cm ⟨0, hn⟩ : ℚ)) :=
      mul_pos (div_pos hcell0 hN) (div_pos hcell0 (hcolQ _))
    calc (0:ℚ) < _ := htermpos
      _ ≤ ∑ j, ((cm i0 j : ℚ) / (matTotal cm : ℚ)) * ((cm i0 j : ℚ) / (colSum cm j : ℚ)) :=
        Finset.single_le_sum (fun j _ => hterm_nonneg i0 j) (Finset.mem_univ _)
      _ ≤ ∑ i, ∑ j, ((cm i j : ℚ) / (matTotal cm : ℚ)) * ((cm i j : ℚ) / (colSum cm j : ℚ)) :=
        Finset.single_le_sum
          (fun i (_ : i ∈ Finset.univ) => Finset.sum_nonneg (fun j _ => hterm_nonneg i j))
          (Finset.mem_univ i0)
  have hrecl_pos : 0 < ∑ i, ∑ j, ((cm i j : ℚ) / (matTotal cm : ℚ)) *
      ((cm i j : ℚ) / (rowSum cm i : ℚ)) := by
    have htermpos : 0 < ((cm i0 ⟨0, hn⟩ : ℚ) / (matTotal cm : ℚ)) *
        ((cm i0 ⟨0, hn⟩ : ℚ) / (rowSum cm i0 : ℚ)) :=
      mul_pos (div_pos hcell0 hN) (div_pos hcell0 (hrowQ _))
    calc (0:ℚ) < _ := htermpos
      _ ≤ ∑ j, ((cm i0 j : ℚ) / (matTotal cm : ℚ)) * ((cm i0 j : ℚ) / (rowSum cm i0 : ℚ)) :=
        Finset.single_le_sum (fun j _ => hterm_nonneg2 i0 j) (Finset.mem_univ _)
      _ ≤ ∑ i, ∑ j, ((cm i j : ℚ) / (matTotal cm : ℚ)) * ((cm i j : ℚ) / (rowSum cm i : ℚ)) :=
        Finset.single_le_sum
          (fun i (_ : i ∈ Finset.univ) => Finset.sum_nonneg (fun j _ => hterm_nonneg2 i j))
          (Finset.mem_univ i0)
  have hprec_le : (∑ i, ∑ j, ((cm i j : ℚ) / (matTotal cm : ℚ)) *
      ((cm i j : ℚ) / (colSum cm j : ℚ))) ≤ 1 := by
    calc (∑ i, ∑ j, ((cm i j : ℚ) / (matTotal cm : ℚ)) * ((cm i j : ℚ) / (colSum cm j : ℚ)))
        ≤ ∑ i, ∑ j, (cm i j : ℚ) / (matTotal cm : ℚ) := by
          apply Finset.sum_le_sum
          intro i _
          apply Finset.sum_le_sum
          intro j _
          calc ((cm i j : ℚ) / (matTotal cm : ℚ)) * ((cm i j : ℚ) / (colSum cm j : ℚ))
              ≤ ((cm i j : ℚ) / (matTotal cm : ℚ)) * 1 := by
                apply mul_le_mul_of_nonneg_left
                · rw [div_le_one (hcolQ j)]
                  exact_mod_cast cell_le_colSum cm i j
                · exact div_nonneg (Nat.cast_nonneg _) (le_of_lt hN)
            _ = (cm i j : ℚ) / (matTotal cm : ℚ) := mul_one _
      _ = 1 := sum_cells_div_N cm hN
  have hrecl_le : (∑ i, ∑ j, ((cm i j : ℚ) / (matTotal cm : ℚ)) *
      ((cm i j : ℚ) / (rowSum cm i : ℚ))) ≤ 1 := by
    calc (∑ i, ∑ j, ((cm i j : ℚ) / (matTotal cm : ℚ)) * ((cm i j : ℚ) / (rowSum cm i : ℚ)))
        ≤ ∑ i, ∑ j, (cm i j : ℚ) / (matTotal cm : ℚ) := by
          apply Finset.sum_le_sum
          intro i _
          apply Finset.sum_le_sum
          intro j _
          calc ((cm i j : ℚ) / (matTotal cm : ℚ)) * ((cm i j : ℚ) / (rowSum cm i : ℚ))
              ≤ ((cm i j : ℚ) / (matTotal cm : ℚ)) * 1 := by
                apply mul_le_mul_of_nonneg_left
                · rw [div_le_one (hrowQ i)]
                  exact_mod_cast cell_le_rowSum cm i j
                · exact div_nonneg (Nat.cast_nonneg _) (le_of_lt hN)
            _ = (cm i j : ℚ) / (matTotal cm : ℚ) := mul_one _
      _ = 1 := sum_cells_div_N cm hN
  refine ⟨hprec_pos, hprec_le, hrecl_pos, hrecl_le, ?_, ?_⟩
  · show 0 < 2 * (_ * _) / (_ + _)
    exact div_pos (by positivity) (by positivity)
  · show 2 * (_ * _) / (_ + _) ≤ 1
    rw [div_le_one (by positivity)]
    nlinarith [mul_nonneg (le_of_lt hprec_pos) (sub_nonneg.mpr hrecl_le),
      mul_nonneg (le_of_lt hrecl_pos) (sub_nonneg.mpr hprec_le)]

/-- Cauchy-Schwarz consequences driving the tau bounds: for a nonnegative
joint distribution with positive row marginals summing to one, the sum of
squared column marginals is at most the expected within-row concentration,
which is itself at most one. -/
lemma tau_core {m n : ℕ} (q : Fin m → Fin n → ℚ) (hq : ∀ i j, 0 ≤ q i j)
    (hr : ∀ i, 0 < ∑ j, q i j) (h1 : (∑ i, ∑ j, q i j) = 1) :
    (∑ j, (∑ i, q i j) ^ 2) ≤ (∑ i, (∑ j, q i j ^ 2) / (∑ j, q i j)) ∧
    (∑ i, (∑ j, q i j ^ 2) / (∑ j, q i j)) ≤ 1 := by
  have hrsum : (∑ i, ∑ j, q i j) = 1 := h1
  constructor
  · have hcol : ∀ j, (∑ i, q i j) ^ 2 ≤ ∑ i, q i j ^ 2 / (∑ j2, q i j2) := by
      intro j
      have he := Finset.sq_sum_div_le_sum_sq_div Finset.univ (fun i => q i j)
        (fun i (_ : i ∈ Finset.univ) => hr i)
      rw [show (∑ i, ∑ j2, q i j2) = 1 from hrsum, div_one] at he
      exact he
    calc (∑ j, (∑ i, q i j) ^ 2) ≤ ∑ j, ∑ i, q i j ^ 2 / (∑ j2, q i j2) :=
        Finset.sum_le_sum (fun j _ => hcol j)
      _ = ∑ i, ∑ j, q i j ^ 2 / (∑ j2, q i j2) := Finset.sum_comm
      _ = ∑ i, (∑ j, q i j ^ 2) / (∑ j2, q i j2) :=
        Finset.sum_congr rfl (fun i _ => by rw [Finset.sum_div])
  · have hrow : ∀ i, (∑ j, q i j ^ 2) / (∑ j, q i j) ≤ ∑ j, q i j := by
      intro i
      rw [div_le_iff (hr i)]
      calc (∑ j, q i j ^ 2) ≤ (∑ j, q i j) ^ 2 :=
          sum_sq_le_sq_sum Finset.univ (fun j => q i j) (fun j _ => hq i j)
        _ = (∑ j, q i j) * (∑ j, q i j) := sq (∑ j, q i j) ▸ by ring
    calc (∑ i, (∑ j, q i j ^ 2) / (∑ j, q i j)) ≤ ∑ i, ∑ j, q i j :=
        Finset.sum_le_sum (fun i _ => hrow i)
      _ = 1 := hrsum


lemma gkTau_bounds {m n : ℕ} (cm : Matrix (Fin m) (Fin n) ℕ)
    (hm : 0 < m) (hn : 0 < n)
    (hr : ∀ i, 0 < rowSum cm i) (hc : ∀ j, 0 < colSum cm j) :
    0 < (gkTauCM cm).1 ∧ (gkTauCM cm).1 ≤ 1 ∧
    0 < (gkTauCM cm).2 ∧ (gkTauCM cm).2 ≤ 1 := by
  have hN : (0:ℚ) < (matTotal cm : ℚ) := by
    exact_mod_cast matTotal_pos cm hm hr
  have hq : ∀ (i : Fin m) (j : Fin n), (0:ℚ) ≤ (cm i j : ℚ) / (matTotal cm : ℚ) :=
    fun i j => div_nonneg (Nat.cast_nonneg _) (le_of_lt hN)
  have hrowEq : ∀ i, (∑ j, (cm i j : ℚ) / (matTotal cm : ℚ)) =
      (rowSum cm i : ℚ) / (matTotal cm : ℚ) := by
    intro i
    rw [rowSum]
    push_cast
    rw [Finset.sum_div]
  have hcolEq : ∀ j, (∑ i, (cm i j : ℚ) / (matTotal cm : ℚ)) =
      (colSum cm j : ℚ) / (matTotal cm : ℚ) := by
    intro j
    rw [colSum]
    push_cast
    rw [Finset.sum_div]
  have hrq : ∀ i, (0:ℚ) < ∑ j, (cm i j : ℚ) / (matTotal cm : ℚ) := by
    intro i
    rw [hrowEq i]
    exact div_pos (by exact_mod_cast hr i) hN
  have hcq : ∀ j, (0:ℚ) < ∑ i, (cm i j : ℚ) / (matTotal cm : ℚ) := by
    intro j
    rw [hcolEq j]
    exact div_pos (by exact_mod_cast hc j) hN
  have h1 : (∑ i, ∑ j, (cm i j : ℚ) / (matTotal cm : ℚ)) = 1 := sum_cells_div_N cm hN
  have h1T : (∑ j, ∑ i, (cm i j : ℚ) / (matTotal cm : ℚ)) = 1 := by
    rw [Finset.sum_comm]
    exact h1
  have hcore1 := tau_core (fun i j => (cm i j : ℚ) / (matTotal cm : ℚ)) hq hrq h1
  have hcore2 := tau_core (fun j i => (cm i j : ℚ) / (matTotal cm : ℚ))
    (fun j i => hq i j) hcq h1T
  simp only [gkTauCM]
  have heps := EPS_pos
  rcases hcore1 with ⟨hA1, hB1⟩
  rcases hcore2 with ⟨hA2, hB2⟩
  refine ⟨?_, ?_, ?_, ?_⟩
  · apply div_pos <;> linarith
  · rw [div_le_one (by linarith)]
    linarith
  · apply div_pos <;> linarith
  · rw [div_le_one (by linarith)]
    linarith


/-! ## Bounds of mutual information and its normalization -/

lemma cast_totalR {m n : ℕ} (cm : Matrix (Fin m) (Fin n) ℕ) :
    ((matTotal cm : ℕ) : ℝ) = ∑ i, ∑ j, (cm i j : ℝ) := by
  rw [matTotal]
  push_cast
  rfl

lemma sum_nz_cells {m n : ℕ} (cm : Matrix (Fin m) (Fin n) ℕ) :
    (∑ p ∈ nzCells cm, (cm p.1 p.2 : ℝ)) = (matTotal cm : ℝ) := by
  rw [show (∑ p ∈ nzCells cm, (cm p.1 p.2 : ℝ)) =
      ∑ p : Fin m × Fin n, (cm p.1 p.2 : ℝ) from ?_]
  · rw [Fintype.sum_prod_type, cast_totalR]
  · apply Finset.sum_subset (Finset.filter_subset _ _)
    intro p _ hp
    have : cm p.1 p.2 = 0 := by
      by_contra h2
      exact hp (Finset.mem_filter.mpr ⟨Finset.mem_univ _, h2⟩)
    rw [this]
    norm_num

lemma sum_nz_outer_le {m n : ℕ} (cm : Matrix (Fin m) (Fin n) ℕ) :
    (∑ p ∈ nzCells cm, (rowSum cm p.1 : ℝ) * (colSum cm p.2 : ℝ)) ≤
      (matTotal cm : ℝ) * (matTotal cm : ℝ) := by
  calc (∑ p ∈ nzCells cm, (rowSum cm p.1 : ℝ) * (colSum cm p.2 : ℝ))
      ≤ ∑ p : Fin m × Fin n, (rowSum cm p.1 : ℝ) * (colSum cm p.2 : ℝ) := by
        apply Finset.sum_le_sum_of_subset_of_nonneg (Finset.filter_subset _ _)
        intro p _ _
        exact mul_nonneg (Nat.cast_nonneg _) (Nat.cast_nonneg _)
    _ = (∑ i, (rowSum cm i : ℝ)) * (∑ j, (colSum cm j : ℝ)) := by
        rw [Fintype.sum_prod_type, Finset.sum_mul_sum]
    _ = (matTotal cm : ℝ) * (matTotal cm : ℝ) := by
        rw [show (∑ i, (rowSum cm i : ℝ)) = (matTotal cm : ℝ) from by
            rw [matTotal_eq_rowSums]; push_cast; rfl,
          show (∑ j, (colSum cm j : ℝ)) = (matTotal cm : ℝ) from by
            rw [matTotal_eq_colSums]; push_cast; rfl]

lemma nz_cell_pos {m n : ℕ} (cm : Matrix (Fin m) (Fin n) ℕ) {p : Fin m × Fin n}
    (hp : p ∈ nzCells cm) : (0:ℝ) < (cm p.1 p.2 : ℝ) := by
  rw [nzCells, Finset.mem_filter] at hp
  have := Nat.pos_of_ne_zero hp.2
  exact_mod_cast this

/-- Gibbs inequality for the source's mutual-information summand with
natural logarithms. -/
lemma miNat_nonneg {m n : ℕ} (cm : Matrix (Fin m) (Fin n) ℕ)
    (hm : 0 < m) (hr : ∀ i, 0 < rowSum cm i) (hc : ∀ j, 0 < colSum cm j) :
    0 ≤ ∑ p ∈ nzCells cm, ((cm p.1 p.2 : ℝ) / (matTotal cm : ℝ)) *
      (Real.log (cm p.1 p.2 : ℝ) -
        Real.log ((rowSum cm p.1 : ℝ) * (colSum cm p.2 : ℝ)) +
        Real.log (matTotal cm : ℝ)) := by
  have hN : (0:ℝ) < (matTotal cm : ℝ) := by
    exact_mod_cast matTotal_pos cm hm hr
  have hrowR : ∀ i, (0:ℝ) < (rowSum cm i : ℝ) := fun i => by exact_mod_cast hr i
  have hcolR : ∀ j, (0:ℝ) < (colSum cm j : ℝ) := fun j => by exact_mod_cast hc j
  have hlow : ∀ p ∈ nzCells cm,
      (cm p.1 p.2 : ℝ) / (matTotal cm : ℝ) -
        ((rowSum cm p.1 : ℝ) * (colSum cm p.2 : ℝ)) /
          ((matTotal cm : ℝ) * (matTotal cm : ℝ)) ≤
      ((cm p.1 p.2 : ℝ) / (matTotal cm : ℝ)) *
        (Real.log (cm p.1 p.2 : ℝ) -
          Real.log ((rowSum cm p.1 : ℝ) * (colSum cm p.2 : ℝ)) +
          Real.log (matTotal cm : ℝ)) := by
    intro p hp
    have hcp := nz_cell_pos cm hp
    have hrs : (0:ℝ) < (rowSum cm p.1 : ℝ) * (colSum cm p.2 : ℝ) :=
      mul_pos (hrowR p.1) (hcolR p.2)
    have hx : (0:ℝ) < ((rowSum cm p.1 : ℝ) * (colSum cm p.2 : ℝ)) /
        ((cm p.1 p.2 : ℝ) * (matTotal cm : ℝ)) :=
      div_pos hrs (mul_pos hcp hN)
    have hlog := Real.log_le_sub_one_of_pos hx
    have hlogeq : Real.log (((rowSum cm p.1 : ℝ) * (colSum cm p.2 : ℝ)) /
        ((cm p.1 p.2 : ℝ) * (matTotal cm : ℝ))) =
        Real.log ((rowSum cm p.1 : ℝ) * (colSum cm p.2 : ℝ)) -
          Real.log (cm p.1 p.2 : ℝ) - Real.log (matTotal cm : ℝ) := by
      rw [Real.log_div (ne_of_gt hrs) (ne_of_gt (mul_pos hcp hN)),
        Real.log_mul (ne_of_gt hcp) (ne_of_gt hN)]
      ring
    rw [hlogeq] at hlog
    have hmul := mul_le_mul_of_nonneg_left
      (neg_le_neg hlog) (le_of_lt (div_pos hcp hN))
    have hcancel : ((cm p.1 p.2 : ℝ) / (matTotal cm : ℝ)) *
        (((rowSum cm p.1 : ℝ) * (colSum cm p.2 : ℝ)) /
          ((cm p.1 p.2 : ℝ) * (matTotal cm : ℝ))) =
        ((rowSum cm p.1 : ℝ) * (colSum cm p.2 : ℝ)) /
          ((matTotal cm : ℝ) * (matTotal cm : ℝ)) := by
      field_simp
      ring
    nlinarith [hmul, hcancel]
  have hsum_low := Finset.sum_le_sum hlow
  have hsplit : (∑ p ∈ nzCells cm, ((cm p.1 p.2 : ℝ) / (matTotal cm : ℝ) -
      ((rowSum cm p.1 : ℝ) * (colSum cm p.2 : ℝ)) /
        ((matTotal cm : ℝ) * (matTotal cm : ℝ)))) =
      (∑ p ∈ nzCells cm, (cm p.1 p.2 : ℝ) / (matTotal cm : ℝ)) -
      ∑ p ∈ nzCells cm, ((rowSum cm p.1 : ℝ) * (colSum cm p.2 : ℝ)) /
        ((matTotal cm : ℝ) * (matTotal cm : ℝ)) := Finset.sum_sub_distrib
  have hone : (∑ p ∈ nzCells cm, (cm p.1 p.2 : ℝ) / (matTotal cm : ℝ)) = 1 := by
    rw [← Finset.sum_div, sum_nz_cells cm, div_self (ne_of_gt hN)]
  have htwo : (∑ p ∈ nzCells cm, ((rowSum cm p.1 : ℝ) * (colSum cm p.2 : ℝ)) /
      ((matTotal cm : ℝ) * (matTotal cm : ℝ))) ≤ 1 := by
    rw [← Finset.sum_div, div_le_one (by positivity)]
    exact sum_nz_outer_le cm
  rw [hsplit] at hsum_low
  linarith


lemma miNat_le_refPair {m n : ℕ} (cm : Matrix (Fin m) (Fin n) ℕ)
    (hm : 0 < m) (hr : ∀ i, 0 < rowSum cm i) (hc : ∀ j, 0 < colSum cm j) :
    (∑ p ∈ nzCells cm, ((cm p.1 p.2 : ℝ) / (matTotal cm : ℝ)) *
      (Real.log (cm p.1 p.2 : ℝ) -
        Real.log ((rowSum cm p.1 : ℝ) * (colSum cm p.2 : ℝ)) +
        Real.log (matTotal cm : ℝ))) ≤
    ∑ p ∈ nzCells cm, ((cm p.1 p.2 : ℝ) / (matTotal cm : ℝ)) *
      (Real.log (matTotal cm : ℝ) - Real.log (rowSum cm p.1 : ℝ)) := by
  have hN : (0:ℝ) < (matTotal cm : ℝ) := by
    exact_mod_cast matTotal_pos cm hm hr
  apply Finset.sum_le_sum
  intro p hp
  have hcp := nz_cell_pos cm hp
  have hrp : (0:ℝ) < (rowSum cm p.1 : ℝ) := by exact_mod_cast hr p.1
  have hsp : (0:ℝ) < (colSum cm p.2 : ℝ) := by exact_mod_cast hc p.2
  apply mul_le_mul_of_nonneg_left _ (le_of_lt (div_pos hcp hN))
  rw [Real.log_mul (ne_of_gt hrp) (ne_of_gt hsp)]
  have hcs : Real.log (cm p.1 p.2 : ℝ) ≤ Real.log (colSum cm p.2 : ℝ) :=
    Real.log_le_log hcp (by exact_mod_cast cell_le_colSum cm p.1 p.2)
  linarith

lemma miNat_le_sysPair {m n : ℕ} (cm : Matrix (Fin m) (Fin n) ℕ)
    (hm : 0 < m) (hr : ∀ i, 0 < rowSum cm i) (hc : ∀ j, 0 < colSum cm j) :
    (∑ p ∈ nzCells cm, ((cm p.1 p.2 : ℝ) / (matTotal cm : ℝ)) *
      (Real.log (cm p.1 p.2 : ℝ) -
        Real.log ((rowSum cm p.1 : ℝ) * (colSum cm p.2 : ℝ)) +
        Real.log (matTotal cm : ℝ))) ≤
    ∑ p ∈ nzCells cm, ((cm p.1 p.2 : ℝ) / (matTotal cm : ℝ)) *
      (Real.log (matTotal cm : ℝ) - Real.log (colSum cm p.2 : ℝ)) := by
  have hN : (0:ℝ) < (matTotal cm : ℝ) := by
    exact_mod_cast matTotal_pos cm hm hr
  apply Finset.sum_le_sum
  intro p hp
  have hcp := nz_cell_pos cm hp
  have hrp : (0:ℝ) < (rowSum cm p.1 : ℝ) := by exact_mod_cast hr p.1
  have hsp : (0:ℝ) < (colSum cm p.2 : ℝ) := by exact_mod_cast hc p.2
  apply mul_le_mul_of_nonneg_left _ (le_of_lt (div_pos hcp hN))
  rw [Real.log_mul (ne_of_gt hrp) (ne_of_gt hsp)]
  have hcr : Real.log (cm p.1 p.2 : ℝ) ≤ Real.log (rowSum cm p.1 : ℝ) :=
    Real.log_le_log hcp (by exact_mod_cast cell_le_rowSum cm p.1 p.2)
  linarith

lemma refPair_eq_marg {m n : ℕ} (cm : Matrix (Fin m) (Fin n) ℕ) (G : Fin m → ℝ) :
    (∑ p ∈ nzCells cm, ((cm p.1 p.2 : ℝ) / (matTotal cm : ℝ)) * G p.1) =
    ∑ i, ((rowSum cm i : ℝ) / (matTotal cm : ℝ)) * G i := by
  have hstep : ∀ i, ((rowSum cm i : ℝ) / (matTotal cm : ℝ)) * G i =
      ∑ j, ((cm i j : ℝ) / (matTotal cm : ℝ)) * G i := by
    intro i
    rw [rowSum]
    push_cast
    rw [Finset.sum_div, Finset.sum_mul]
  have h3 : (∑ p ∈ nzCells cm, ((cm p.1 p.2 : ℝ) / (matTotal cm : ℝ)) * G p.1) =
      ∑ p ∈ (Finset.univ : Finset (Fin m × Fin n)),
        ((cm p.1 p.2 : ℝ) / (matTotal cm : ℝ)) * G p.1 := by
    apply Finset.sum_subset (Finset.filter_subset _ _)
    intro p _ hp
    have : cm p.1 p.2 = 0 := by
      by_contra h2
      exact hp (Finset.mem_filter.mpr ⟨Finset.mem_univ _, h2⟩)
    rw [this]
    norm_num
  have h2 : (∑ p ∈ (Finset.univ : Finset (Fin m × Fin n)),
      ((cm p.1 p.2 : ℝ) / (matTotal cm : ℝ)) * G p.1) =
      ∑ i, ∑ j, ((cm i j : ℝ) / (matTotal cm : ℝ)) * G i := by
    rw [← Finset.univ_product_univ, Finset.sum_product]
  calc (∑ p ∈ nzCells cm, ((cm p.1 p.2 : ℝ) / (matTotal cm : ℝ)) * G p.1)
      = ∑ p ∈ (Finset.univ : Finset (Fin m × Fin n)),
        ((cm p.1 p.2 : ℝ) / (matTotal cm : ℝ)) * G p.1 := h3
    _ = ∑ i, ∑ j, ((cm i j : ℝ) / (matTotal cm : ℝ)) * G i := h2
    _ = ∑ i, ((rowSum cm i : ℝ) / (matTotal cm : ℝ)) * G i :=
      Finset.sum_congr rfl (fun i _ => (hstep i).symm)

lemma sysPair_eq_marg {m n : ℕ} (cm : Matrix (Fin m) (Fin n) ℕ) (G : Fin n → ℝ) :
    (∑ p ∈ nzCells cm, ((cm p.1 p.2 : ℝ) / (matTotal cm : ℝ)) * G p.2) =
    ∑ j, ((colSum cm j : ℝ) / (matTotal cm : ℝ)) * G j := by
  have hstep : ∀ j, ((colSum cm j : ℝ) / (matTotal cm : ℝ)) * G j =
      ∑ i, ((cm i j : ℝ) / (matTotal cm : ℝ)) * G j := by
    intro j
    rw [colSum]
    push_cast
    rw [Finset.sum_div, Finset.sum_mul]
  have h3 : (∑ p ∈ nzCells cm, ((cm p.1 p.2 : ℝ) / (matTotal cm : ℝ)) * G p.2) =
      ∑ p ∈ (Finset.univ : Finset (Fin m × Fin n)),
        ((cm p.1 p.2 : ℝ) / (matTotal cm : ℝ)) * G p.2 := by
    apply Finset.sum_subset (Finset.filter_subset _ _)
    intro p _ hp
    have : cm p.1 p.2 = 0 := by
      by_contra h2
      exact hp (Finset.mem_filter.mpr ⟨Finset.mem_univ _, h2⟩)
    rw [this]
    norm_num
  have h2 : (∑ p ∈ (Finset.univ : Finset (Fin m × Fin n)),
      ((cm p.1 p.2 : ℝ) / (matTotal cm : ℝ)) * G p.2) =
      ∑ i, ∑ j, ((cm i j : ℝ) / (matTotal cm : ℝ)) * G j := by
    rw [← Finset.univ_product_univ, Finset.sum_product]
  calc (∑ p ∈ nzCells cm, ((cm p.1 p.2 : ℝ) / (matTotal cm : ℝ)) * G p.2)
      = ∑ p ∈ (Finset.univ : Finset (Fin m × Fin n)),
        ((cm p.1 p.2 : ℝ) / (matTotal cm : ℝ)) * G p.2 := h3
    _ = ∑ i, ∑ j, ((cm i j : ℝ) / (matTotal cm : ℝ)) * G j := h2
    _ = ∑ j, ∑ i, ((cm i j : ℝ) / (matTotal cm : ℝ)) * G j := Finset.sum_comm
    _ = ∑ j, ((colSum cm j : ℝ) / (matTotal cm : ℝ)) * G j :=
      Finset.sum_congr rfl (fun j _ => (hstep j).symm)

lemma kON_pos (nats : Bool) : (0:ℝ) < if nats then 1 else (Real.log 2)⁻¹ := by
  cases nats
  · simp only [Bool.false_eq_true, if_false]
    exact inv_pos.mpr (Real.log_pos (by norm_num))
  · simp only [if_true]
    norm_num

lemma logF_eq_scale (nats : Bool) (x : ℝ) :
    logF nats x = (if nats then 1 else (Real.log 2)⁻¹) * Real.log x := by
  cases nats
  · simp only [logF, Bool.false_eq_true, if_false, Real.logb]
    rw [div_eq_inv_mul]
  · simp only [logF, if_true, one_mul]


lemma mi_nmi_bounds {m n : ℕ} (cm : Matrix (Fin m) (Fin n) ℕ)
    (hm : 0 < m) (hn : 0 < n)
    (hr : ∀ i, 0 < rowSum cm i) (hc : ∀ j, 0 < colSum cm j) (nats : Bool) :
    0 ≤ (mutualInformationCM cm nats).1 ∧
    0 ≤ (mutualInformationCM cm nats).2 ∧ (mutualInformationCM cm nats).2 ≤ 1 := by
  have hN : (0:ℝ) < (matTotal cm : ℝ) := by
    exact_mod_cast matTotal_pos cm hm hr
  have hrowR : ∀ i, (0:ℝ) < (rowSum cm i : ℝ) := fun i => by exact_mod_cast hr i
  have hcolR : ∀ j, (0:ℝ) < (colSum cm j : ℝ) := fun j => by exact_mod_cast hc j
  have hk0 : (0:ℝ) < (if nats then 1 else (Real.log 2)⁻¹) := kON_pos nats
  have hepsR : (0:ℝ) < ((EPS : ℚ) : ℝ) := by exact_mod_cast EPS_pos
  have hM0 := miNat_nonneg cm hm hr hc
  have hMA := (miNat_le_refPair cm hm hr hc).trans (le_of_eq (refPair_eq_marg cm
    (fun i => Real.log (matTotal cm : ℝ) - Real.log (rowSum cm i : ℝ))))
  have hMB := (miNat_le_sysPair cm hm hr hc).trans (le_of_eq (sysPair_eq_marg cm
    (fun j => Real.log (matTotal cm : ℝ) - Real.log (colSum cm j : ℝ))))
  have hA0 : (0:ℝ) ≤ ∑ i, ((rowSum cm i : ℝ) / (matTotal cm : ℝ)) *
      (Real.log (matTotal cm : ℝ) - Real.log (rowSum cm i : ℝ)) := le_trans hM0 hMA
  have hB0 : (0:ℝ) ≤ ∑ j, ((colSum cm j : ℝ) / (matTotal cm : ℝ)) *
      (Real.log (matTotal cm : ℝ) - Real.log (colSum cm j : ℝ)) := le_trans hM0 hMB
  have hmiRaw : (∑ p ∈ nzCells cm, ((cm p.1 p.2 : ℝ) / (matTotal cm : ℝ)) *
      (logF nats (cm p.1 p.2 : ℝ) -
        logF nats ((rowSum cm p.1 : ℝ) * (colSum cm p.2 : ℝ)) +
        logF nats (matTotal cm : ℝ))) =
      (if nats then 1 else (Real.log 2)⁻¹) *
      ∑ p ∈ nzCells cm, ((cm p.1 p.2 : ℝ) / (matTotal cm : ℝ)) *
        (Real.log (cm p.1 p.2 : ℝ) -
          Real.log ((rowSum cm p.1 : ℝ) * (colSum cm p.2 : ℝ)) +
          Real.log (matTotal cm : ℝ)) := by
    rw [Finset.mul_sum]
    apply Finset.sum_congr rfl
    intro p _
    rw [logF_eq_scale, logF_eq_scale, logF_eq_scale]
    ring
  have hRefRaw : (-∑ i ∈ Finset.univ.filter
      (fun i : Fin m => 0 < (rowSum cm i : ℝ) / (matTotal cm : ℝ)),
      ((rowSum cm i : ℝ) / (matTotal cm : ℝ)) *
        logF nats ((rowSum cm i : ℝ) / (matTotal cm : ℝ))) =
      (if nats then 1 else (Real.log 2)⁻¹) *
      ∑ i, ((rowSum cm i : ℝ) / (matTotal cm : ℝ)) *
        (Real.log (matTotal cm : ℝ) - Real.log (rowSum cm i : ℝ)) := by
    rw [Finset.filter_true_of_mem (fun i _ => div_pos (hrowR i) hN)]
    rw [Finset.mul_sum, ← Finset.sum_neg_distrib]
    apply Finset.sum_congr rfl
    intro i _
    rw [logF_eq_scale, Real.log_div (ne_of_gt (hrowR i)) (ne_of_gt hN)]
    ring
  have hSysRaw : (-∑ j ∈ Finset.univ.filter
      (fun j : Fin n => 0 < (colSum cm j : ℝ) / (matTotal cm : ℝ)),
      ((colSum cm j : ℝ) / (matTotal cm : ℝ)) *
        logF nats ((colSum cm j : ℝ) / (matTotal cm : ℝ))) =
      (if nats then 1 else (Real.log 2)⁻¹) *
      ∑ j, ((colSum cm j : ℝ) / (matTotal cm : ℝ)) *
        (Real.log (matTotal cm : ℝ) - Real.log (colSum cm j : ℝ)) := by
    rw [Finset.filter_true_of_mem (fun j _ => div_pos (hcolR j) hN)]
    rw [Finset.mul_sum, ← Finset.sum_neg_distrib]
    apply Finset.sum_congr rfl
    intro j _
    rw [logF_eq_scale, Real.log_div (ne_of_gt (hcolR j)) (ne_of_gt hN)]
    ring
  refine ⟨?_, ?_, ?_⟩
  · show 0 ≤ ∑ p ∈ nzCells cm, ((cm p.1 p.2 : ℝ) / (matTotal cm : ℝ)) *
      (logF nats (cm p.1 p.2 : ℝ) -
        logF nats ((rowSum cm p.1 : ℝ) * (colSum cm p.2 : ℝ)) +
        logF nats (matTotal cm : ℝ))
    rw [hmiRaw]
    exact mul_nonneg (le_of_lt hk0) hM0
  · show 0 ≤ (∑ p ∈ nzCells cm, ((cm p.1 p.2 : ℝ) / (matTotal cm : ℝ)) *
      (logF nats (cm p.1 p.2 : ℝ) -
        logF nats ((rowSum cm p.1 : ℝ) * (colSum cm p.2 : ℝ)) +
        logF nats (matTotal cm : ℝ))) /
      Real.sqrt ((-∑ i ∈ Finset.univ.filter
          (fun i : Fin m => 0 < (rowSum cm i : ℝ) / (matTotal cm : ℝ)),
          ((rowSum cm i : ℝ) / (matTotal cm : ℝ)) *
            logF nats ((rowSum cm i : ℝ) / (matTotal cm : ℝ))) *
        (-∑ j ∈ Finset.univ.filter
          (fun j : Fin n => 0 < (colSum cm j : ℝ) / (matTotal cm : ℝ)),
          ((colSum cm j : ℝ) / (matTotal cm : ℝ)) *
            logF nats ((colSum cm j : ℝ) / (matTotal cm : ℝ))) + ((EPS : ℚ) : ℝ))
    rw [hmiRaw, hRefRaw, hSysRaw]
    exact div_nonneg (mul_nonneg (le_of_lt hk0) hM0) (Real.sqrt_nonneg _)
  · show (∑ p ∈ nzCells cm, ((cm p.1 p.2 : ℝ) / (matTotal cm : ℝ)) *
      (logF nats (cm p.1 p.2 : ℝ) -
        logF nats ((rowSum cm p.1 : ℝ) * (colSum cm p.2 : ℝ)) +
        logF nats (matTotal cm : ℝ))) /
      Real.sqrt ((-∑ i ∈ Finset.univ.filter
          (fun i : Fin m => 0 < (rowSum cm i : ℝ) / (matTotal cm : ℝ)),
          ((rowSum cm i : ℝ) / (matTotal cm : ℝ)) *
            logF nats ((rowSum cm i : ℝ) / (matTotal cm : ℝ))) *
        (-∑ j ∈ Finset.univ.filter
          (fun j : Fin n => 0 < (colSum cm j : ℝ) / (matTotal cm : ℝ)),
          ((colSum cm j : ℝ) / (matTotal cm : ℝ)) *
            logF nats ((colSum cm j : ℝ) / (matTotal cm : ℝ))) + ((EPS : ℚ) : ℝ)) ≤ 1
    rw [hmiRaw, hRefRaw, hSysRaw]
    have hMM : (∑ p ∈ nzCells cm, ((cm p.1 p.2 : ℝ) / (matTotal cm : ℝ)) *
        (Real.log (cm p.1 p.2 : ℝ) -
          Real.log ((rowSum cm p.1 : ℝ) * (colSum cm p.2 : ℝ)) +
          Real.log (matTotal cm : ℝ))) *
        (∑ p ∈ nzCells cm, ((cm p.1 p.2 : ℝ) / (matTotal cm : ℝ)) *
        (Real.log (cm p.1 p.2 : ℝ) -
          Real.log ((rowSum cm p.1 : ℝ) * (colSum cm p.2 : ℝ)) +
          Real.log (matTotal cm : ℝ))) ≤
        (∑ i, ((rowSum cm i : ℝ) / (matTotal cm : ℝ)) *
          (Real.log (matTotal cm : ℝ) - Real.log (rowSum cm i : ℝ))) *
        ∑ j, ((colSum cm j : ℝ) / (matTotal cm : ℝ)) *
          (Real.log (matTotal cm : ℝ) - Real.log (colSum cm j : ℝ)) :=
      mul_le_mul hMA hMB hM0 hA0
    have hsqpos : (0:ℝ) <
        (if nats then 1 else (Real.log 2)⁻¹) *
          (∑ i, ((rowSum cm i : ℝ) / (matTotal cm : ℝ)) *
            (Real.log (matTotal cm : ℝ) - Real.log (rowSum cm i : ℝ))) *
          ((if nats then 1 else (Real.log 2)⁻¹) *
            ∑ j, ((colSum cm j : ℝ) / (matTotal cm : ℝ)) *
              (Real.log (matTotal cm : ℝ) - Real.log (colSum cm j : ℝ))) +
          ((EPS : ℚ) : ℝ) := by
      have h1 : (0:ℝ) ≤ (if nats then 1 else (Real.log 2)⁻¹) *
          (∑ i, ((rowSum cm i : ℝ) / (matTotal cm : ℝ)) *
            (Real.log (matTotal cm : ℝ) - Real.log (rowSum cm i : ℝ))) :=
        mul_nonneg (le_of_lt hk0) hA0
      have h2 : (0:ℝ) ≤ (if nats then 1 else (Real.log 2)⁻¹) *
          (∑ j, ((colSum cm j : ℝ) / (matTotal cm : ℝ)) *
            (Real.log (matTotal cm : ℝ) - Real.log (colSum cm j : ℝ))) :=
        mul_nonneg (le_of_lt hk0) hB0
      nlinarith [mul_nonneg h1 h2]
    rw [div_le_one (Real.sqrt_pos.mpr hsqpos)]
    have hsq : ((if nats then 1 else (Real.log 2)⁻¹) *
        (∑ p ∈ nzCells cm, ((cm p.1 p.2 : ℝ) / (matTotal cm : ℝ)) *
          (Real.log (cm p.1 p.2 : ℝ) -
            Real.log ((rowSum cm p.1 : ℝ) * (colSum cm p.2 : ℝ)) +
            Real.log (matTotal cm : ℝ)))) *
        ((if nats then 1 else (Real.log 2)⁻¹) *
        (∑ p ∈ nzCells cm, ((cm p.1 p.2 : ℝ) / (matTotal cm : ℝ)) *
          (Real.log (cm p.1 p.2 : ℝ) -
            Real.log ((rowSum cm p.1 : ℝ) * (colSum cm p.2 : ℝ)) +
            Real.log (matTotal cm : ℝ)))) ≤
        (if nats then 1 else (Real.log 2)⁻¹) *
          (∑ i, ((rowSum cm i : ℝ) / (matTotal cm : ℝ)) *
            (Real.log (matTotal cm : ℝ) - Real.log (rowSum cm i : ℝ))) *
          ((if nats then 1 else (Real.log 2)⁻¹) *
            ∑ j, ((colSum cm j : ℝ) / (matTotal cm : ℝ)) *
              (Real.log (matTotal cm : ℝ) - Real.log (colSum cm j : ℝ))) +
          ((EPS : ℚ) : ℝ) := by
      nlinarith [hMM, mul_pos hk0 hk0, hepsR]
    calc (if nats then 1 else (Real.log 2)⁻¹) *
        (∑ p ∈ nzCells cm, ((cm p.1 p.2 : ℝ) / (matTotal cm : ℝ)) *
          (Real.log (cm p.1 p.2 : ℝ) -
            Real.log ((rowSum cm p.1 : ℝ) * (colSum cm p.2 : ℝ)) +
            Real.log (matTotal cm : ℝ)))
        = Real.sqrt (((if nats then 1 else (Real.log 2)⁻¹) *
          (∑ p ∈ nzCells cm, ((cm p.1 p.2 : ℝ) / (matTotal cm : ℝ)) *
            (Real.log (cm p.1 p.2 : ℝ) -
              Real.log ((rowSum cm p.1 : ℝ) * (colSum cm p.2 : ℝ)) +
              Real.log (matTotal cm : ℝ)))) *
          ((if nats then 1 else (Real.log 2)⁻¹) *
          (∑ p ∈ nzCells cm, ((cm p.1 p.2 : ℝ) / (matTotal cm : ℝ)) *
            (Real.log (cm p.1 p.2 : ℝ) -
              Real.log ((rowSum cm p.1 : ℝ) * (colSum cm p.2 : ℝ)) +
              Real.log (matTotal cm : ℝ))))) :=
        (Real.sqrt_mul_self (mul_nonneg (le_of_lt hk0) hM0)).symm
      _ ≤ _ := Real.sqrt_le_sqrt hsq


/-- C7: for every contingency matrix proper (positive row and column
marginals, as produced by contingency_matrix for observed classes), B-cubed
precision, recall and F1, both tau directions and the normalized mutual
information lie in [0, 1], and the mutual information is nonnegative. -/
theorem C7_metric_ranges {m n : ℕ} (cm : Matrix (Fin m) (Fin n) ℕ)
    (hm : 0 < m) (hn : 0 < n)
    (hr : ∀ i, 0 < rowSum cm i) (hc : ∀ j, 0 < colSum cm j) (nats : Bool) :
    (0 ≤ (bcubedCM cm).1 ∧ (bcubedCM cm).1 ≤ 1) ∧
    (0 ≤ (bcubedCM cm).2.1 ∧ (bcubedCM cm).2.1 ≤ 1) ∧
    (0 ≤ (bcubedCM cm).2.2 ∧ (bcubedCM cm).2.2 ≤ 1) ∧
    (0 ≤ (gkTauCM cm).1 ∧ (gkTauCM cm).1 ≤ 1) ∧
    (0 ≤ (gkTauCM cm).2 ∧ (gkTauCM cm).2 ≤ 1) ∧
    0 ≤ (mutualInformationCM cm nats).1 ∧
    (0 ≤ (mutualInformationCM cm nats).2 ∧ (mutualInformationCM cm nats).2 ≤ 1) := by
  obtain ⟨hb1, hb2, hb3, hb4, hb5, hb6⟩ := bcubed_bounds cm hm hn hr hc
  obtain ⟨ht1, ht2, ht3, ht4⟩ := gkTau_bounds cm hm hn hr hc
  obtain ⟨hm1, hm2, hm3⟩ := mi_nmi_bounds cm hm hn hr hc nats
  exact ⟨⟨le_of_lt hb1, hb2⟩, ⟨le_of_lt hb3, hb4⟩, ⟨le_of_lt hb5, hb6⟩,
    ⟨le_of_lt ht1, ht2⟩, ⟨le_of_lt ht3, ht4⟩, hm1, hm2, hm3⟩

/-- C7 witness: the range bounds at the concrete 2-by-2 matrix with rows
(2,1) and (1,1) in bits. -/
theorem C7_witness :
    ((0 < 2 ∧ 0 < 2) ∧
     (∀ i, 0 < rowSum (Matrix.of ![![2, 1], ![1, 1]] : Matrix (Fin 2) (Fin 2) ℕ) i) ∧
     (∀ j, 0 < colSum (Matrix.of ![![2, 1], ![1, 1]] : Matrix (Fin 2) (Fin 2) ℕ) j)) ∧
    ((0 ≤ (bcubedCM (Matrix.of ![![2, 1], ![1, 1]] : Matrix (Fin 2) (Fin 2) ℕ)).1 ∧
      (bcubedCM (Matrix.of ![![2, 1], ![1, 1]] : Matrix (Fin 2) (Fin 2) ℕ)).1 ≤ 1) ∧
     (0 ≤ (bcubedCM (Matrix.of ![![2, 1], ![1, 1]] : Matrix (Fin 2) (Fin 2) ℕ)).2.1 ∧
      (bcubedCM (Matrix.of ![![2, 1], ![1, 1]] : Matrix (Fin 2) (Fin 2) ℕ)).2.1 ≤ 1) ∧
     (0 ≤ (bcubedCM (Matrix.of ![![2, 1], ![1, 1]] : Matrix (Fin 2) (Fin 2) ℕ)).2.2 ∧
      (bcubedCM (Matrix.of ![![2, 1], ![1, 1]] : Matrix (Fin 2) (Fin 2) ℕ)).2.2 ≤ 1) ∧
     (0 ≤ (gkTauCM (Matrix.of ![![2, 1], ![1, 1]] : Matrix (Fin 2) (Fin 2) ℕ)).1 ∧
      (gkTauCM (Matrix.of ![![2, 1], ![1, 1]] : Matrix (Fin 2) (Fin 2) ℕ)).1 ≤ 1) ∧
     (0 ≤ (gkTauCM (Matrix.of ![![2, 1], ![1, 1]] : Matrix (Fin 2) (Fin 2) ℕ)).2 ∧
      (gkTauCM (Matrix.of ![![2, 1], ![1, 1]] : Matrix (Fin 2) (Fin 2) ℕ)).2 ≤ 1) ∧
     0 ≤ (mutualInformationCM (Matrix.of ![![2, 1], ![1, 1]] :
        Matrix (Fin 2) (Fin 2) ℕ) false).1 ∧
     (0 ≤ (mutualInformationCM (Matrix.of ![![2, 1], ![1, 1]] :
        Matrix (Fin 2) (Fin 2) ℕ) false).2 ∧
      (mutualInformationCM (Matrix.of ![![2, 1], ![1, 1]] :
        Matrix (Fin 2) (Fin 2) ℕ) false).2 ≤ 1)) :=
  ⟨⟨⟨by norm_num, by norm_num⟩, by decide, by decide⟩,
   C7_metric_ranges (Matrix.of ![![2, 1], ![1, 1]]) (by norm_num) (by norm_num)
     (by decide) (by decide) false⟩


end DScore
